import Mathlib

/-!
# alb-log-pipe: batching, decoding and scheduling

A shallow embedding of the Go sources of `alb-log-pipe`
(`internal/targets`, `internal/processor`, `internal/types`) and the
properties proved about it.

Conventions of the embedding

* A Go `error` is a `GoError`; a nil error is `none`.
* Library calls whose code is outside the repository (`json.Marshal`,
  `time.Parse`, `sort.Slice`, the gzip and csv readers, the AWS clients)
  appear as parameters or as fields of the client structures; `sort.Slice`
  is held to the contract its documentation states.
* A channel that is read by one `select` loop is the list of what the loop
  receives, in the order it receives it.
-/

namespace AlbLogPipe

/-! ## Errors -/

/-- A Go `error` value built by `fmt.Errorf`: `errorf` carries the formatted
message, `wrapf` (a format with `%w`) carries the formatted message and the
wrapped cause. -/
inductive GoError where
  | errorf (msg : String) : GoError
  | wrapf (msg : String) (cause : GoError) : GoError
  deriving DecidableEq, Repr

/-- The `Error()` method: the formatted message. -/
def GoError.Error : GoError → String
  | .errorf msg => msg
  | .wrapf msg _ => msg

/-- The `errors.Unwrap` of an error: the cause of a `%w` error, nothing otherwise. -/
def GoError.Unwrap : GoError → Option GoError
  | .errorf _ => none
  | .wrapf _ cause => some cause

/-! ## internal/types -/

/-- A `time.Time` as the pair the Go runtime keeps: seconds since the Unix
epoch and the nanoseconds within that second. -/
structure Time where
  sec : Int
  nsec : Nat
  deriving DecidableEq, Repr

/-- The method `Time.UnixMilli`: `t.unixSec()*1e3 + int64(t.nsec())/1e6`. -/
def Time.UnixMilli (t : Time) : Int :=
  t.sec * 1000 + (t.nsec / 1000000 : Nat)

/-- A Go `map[string]string` as an association list with at most one pair per key. -/
abbrev GoMap := List (String × String)

/-- The assignment `m[k] = v`: the pair for `k` is replaced or added. -/
def GoMap.set (m : GoMap) (k v : String) : GoMap :=
  (k, v) :: m.filter (fun p => p.1 != k)

/-- The lookup `m[k]` with its presence flag. -/
def GoMap.get (m : GoMap) (k : String) : Option String :=
  m.lookup k

/-- The keys present in the map. -/
def GoMap.keys (m : GoMap) : List String :=
  m.map Prod.fst

/-- The struct `types.LogEntry`. -/
structure LogEntry where
  Data : GoMap
  Timestamp : Time
  deriving DecidableEq, Repr

/-- The struct `types.S3ObjectInfo`. -/
structure S3ObjectInfo where
  Bucket : String
  Key : String
  deriving DecidableEq, Repr

/-! ## internal/targets/cloudwatch.go -/

/-- The constant `maxBatchSize`. -/
def maxBatchSize : Nat := 1048576

/-- The constant `maxBatchCount`. -/
def maxBatchCount : Nat := 10000

/-- A `cloudwatchlogs.InputLogEvent`: the message bytes and the timestamp in
Unix milliseconds. -/
structure InputLogEvent where
  Message : List UInt8
  Timestamp : Int
  deriving DecidableEq, Repr

/-- The signature of `json.Marshal` on the `Data` map of an entry. -/
abbrev Marshal := GoMap → Except GoError (List UInt8)

/-- What one iteration of the `select` loop of `SendLogs` receives before the
queue is closed: an entry from `entryChan` or a tick of the ticker. -/
inductive Msg where
  | entry (e : LogEntry) : Msg
  | tick : Msg
  deriving DecidableEq, Repr

/-- The local variables of `SendLogs`, and the batches handed to `sendBatch`
so far, oldest first. -/
structure BatchState where
  events : List InputLogEvent
  currentBatchSize : Nat
  sent : List (List InputLogEvent)
  deriving DecidableEq, Repr

/-- The state on entry to the loop: `events` nil, `currentBatchSize` zero. -/
def BatchState.init : BatchState := ⟨[], 0, []⟩

/-- The branch `case entry, ok := <-entryChan` with `ok` true. -/
def onEntry (jsonMarshal : Marshal) (s : BatchState) (entry : LogEntry) : BatchState :=
  match jsonMarshal entry.Data with
  | .error _ => s
  | .ok jsonData =>
    let event : InputLogEvent := ⟨jsonData, entry.Timestamp.UnixMilli⟩
    let eventSize := jsonData.length + 26
    let s1 : BatchState :=
      if s.events.length > 0 ∧
          (s.currentBatchSize + eventSize > maxBatchSize ∨ s.events.length ≥ maxBatchCount) then
        ⟨[], 0, s.sent ++ [s.events]⟩
      else s
    ⟨s1.events ++ [event], s1.currentBatchSize + eventSize, s1.sent⟩

/-- The branch `case <-ticker.C`. -/
def onTick (s : BatchState) : BatchState :=
  if s.events.length > 0 then ⟨[], 0, s.sent ++ [s.events]⟩ else s

/-- One iteration of the loop on a message. -/
def stepMsg (jsonMarshal : Marshal) (s : BatchState) : Msg → BatchState
  | .entry e => onEntry jsonMarshal s e
  | .tick => onTick s

/-- The loop of `SendLogs` over everything received before the queue closes. -/
def runLoop (jsonMarshal : Marshal) (s : BatchState) (msgs : List Msg) : BatchState :=
  msgs.foldl (stepMsg jsonMarshal) s

/-- The branch taken when `entryChan` is closed (`ok` false): the remaining
events are sent and the function returns. The result is the list of batches
handed to `sendBatch`. -/
def onClose (s : BatchState) : List (List InputLogEvent) :=
  if s.events.length > 0 then s.sent ++ [s.events] else s.sent

/-- The method `CloudWatchTarget.SendLogs`: the batches handed to `sendBatch`,
in dispatch order, when the loop receives `msgs` and then finds the queue
closed. -/
def SendLogs (jsonMarshal : Marshal) (msgs : List Msg) : List (List InputLogEvent) :=
  onClose (runLoop jsonMarshal BatchState.init msgs)

/-- The comparison closure given to `sort.Slice` in `sendBatch`. -/
def lessByTimestamp (a b : InputLogEvent) : Bool :=
  decide (a.Timestamp < b.Timestamp)

/-- The signature of `sort.Slice` on a slice of events: the comparison closure,
the slice on entry, the slice on return. The library's code is outside the
repository and differs between toolchains, so the call is a parameter. -/
abbrev SortSlice :=
  (InputLogEvent → InputLogEvent → Bool) → List InputLogEvent → List InputLogEvent

/-- What the library documents for `sort.Slice`. The closure `less` must be a
strict ordering that is transitive both ways: if `less i j` and `less j k` then
`less i k`, and if neither `less i j` nor `less j k` then not `less i k`. The
slice is then rearranged (elements are only exchanged) so that no element is
less than an element before it; elements that are equal under `less` may come
in any order. -/
def SortSliceContract (sortSlice : SortSlice) : Prop :=
  ∀ (less : InputLogEvent → InputLogEvent → Bool) (xs : List InputLogEvent),
    (∀ a, less a a = false) →
    (∀ a b c, less a b = true → less b c = true → less a c = true) →
    (∀ a b c, less a b = false → less b c = false → less a c = false) →
    (sortSlice less xs).Perm xs ∧
      (sortSlice less xs).Pairwise (fun a b => less b a = false)

/-- The inner loop of the library's insertion sort,
`for j := i; j > a && less(j, j-1); j-- { swap(j, j-1) }`: the new element `x`
moves left while it is less than its left neighbour. The elements to its left
are given nearest first, and so is the result. -/
def moveLeft (less : InputLogEvent → InputLogEvent → Bool) (x : InputLogEvent) :
    List InputLogEvent → List InputLogEvent
  | [] => [x]
  | y :: ys => if less x y then y :: moveLeft less x ys else x :: y :: ys

/-- The library's insertion sort, one of the sorts behind `sort.Slice` (the
library runs it on slices of at most 12 elements): each element in turn moves
left into the part before it. It is the instance of `SortSlice` used in the
examples. -/
def insertionSort : SortSlice := fun less xs =>
  (xs.foldl (fun sortedRev x => moveLeft less x sortedRev) []).reverse

/-- The method `sendBatch`: the `LogEvents` of the `PutLogEventsInput` it
builds, which is the slice `events` after `sort.Slice(events, less)` with the
closure that compares timestamps. -/
def sendBatch (sortSlice : SortSlice) (events : List InputLogEvent) : List InputLogEvent :=
  sortSlice lessByTimestamp events

/-- The encoded payload of a batch: the message bytes plus 26 per event. -/
def payload (b : List InputLogEvent) : Nat :=
  (b.map (fun e => e.Message.length + 26)).sum

/-- The event `SendLogs` builds from an entry, when `json.Marshal` succeeds. -/
def eventOf (jsonMarshal : Marshal) (entry : LogEntry) : Option InputLogEvent :=
  match jsonMarshal entry.Data with
  | .error _ => none
  | .ok jsonData => some ⟨jsonData, entry.Timestamp.UnixMilli⟩

/-- The events built from the entries among the messages, in arrival order. -/
def eventsOf (jsonMarshal : Marshal) (msgs : List Msg) : List InputLogEvent :=
  msgs.filterMap (fun m => match m with
    | .entry e => eventOf jsonMarshal e
    | .tick => none)

/-! ## internal/targets/targets.go -/

/-- The constant `TargetCloudWatch`. -/
def TargetCloudWatch : String := "cloudwatch"

/-- The constant `TargetStdout`. -/
def TargetStdout : String := "stdout"

/-- The struct `LogConfig`. -/
structure LogConfig where
  LogGroupName : String
  LogStreamName : String
  deriving DecidableEq, Repr

/-- The implementations of the interface `Target`: a `CloudWatchTarget` with
its log configuration, or a `StdoutTarget`. -/
inductive Target where
  | cloudwatch (logConfig : LogConfig) : Target
  | stdout : Target
  deriving DecidableEq, Repr

/-- The function `NewStdoutTarget`. -/
def NewStdoutTarget : Target := Target.stdout

/-- The body of `strings.Split` for a one-byte separator, on the characters
of the string: the pieces between the separators, an empty string giving one
empty piece. -/
def splitChars (sep : Char) : List Char → List (List Char)
  | [] => [[]]
  | c :: cs =>
    if c = sep then [] :: splitChars sep cs
    else
      match splitChars sep cs with
      | [] => [[c]]
      | piece :: pieces => (c :: piece) :: pieces

/-- The call `strings.Split(s, sep)` for a one-byte separator. -/
def stringsSplit (s : String) (sep : Char) : List String :=
  (splitChars sep s.data).map String.mk

/-- One iteration of the loop of `GetTargets` on the entry `t`. The outcome of
`NewCloudWatchTarget(sess)`, which reads the environment and calls the
backend, is the parameter `newCloudWatchTarget`. -/
def addTarget (newCloudWatchTarget : Except GoError Target) (targets : List Target)
    (t : String) : List Target :=
  if t = TargetCloudWatch then
    match newCloudWatchTarget with
    | .error _ => targets
    | .ok target => targets ++ [target]
  else if t = TargetStdout then targets ++ [NewStdoutTarget]
  else targets

/-- The function `GetTargets`: the target list and the error. A nil list is
the empty list. -/
def GetTargets (newCloudWatchTarget : Except GoError Target) (targetsConfig : String) :
    List Target × Option GoError :=
  let targetTypes := stringsSplit targetsConfig ','
  let targets := targetTypes.foldl (addTarget newCloudWatchTarget) []
  if targets.length = 0 then
    ([], some (.errorf "error: no valid targets initialized"))
  else (targets, none)

/-! ## internal/processor/handlers.go: parseS3Url

A Go string is a byte string; the functions below work on the characters of a
string. The separators searched for (`s3://`, `/`) are ASCII, so that a split
at a character position is the split at the matching byte position. -/

/-- The call `strings.HasPrefix(s, pre)`. -/
def stringsHasPrefix (s pre : String) : Bool :=
  pre.data.isPrefixOf s.data

/-- The call `strings.TrimPrefix(s, pre)`. -/
def stringsTrimPrefix (s pre : String) : String :=
  if stringsHasPrefix s pre then ⟨s.data.drop pre.data.length⟩ else s

/-- The search of `strings.Index` from position `i` on. -/
def indexFrom (substr : List Char) : List Char → Nat → Int
  | [], i => if substr = [] then (i : Int) else -1
  | c :: cs, i => if substr.isPrefixOf (c :: cs) then (i : Int) else indexFrom substr cs (i + 1)

/-- The call `strings.Index(s, substr)`: the position of the first instance of
`substr` in `s`, or `-1`. -/
def stringsIndex (s substr : String) : Int :=
  indexFrom substr.data s.data 0

/-- The function `parseS3Url`: the three results `bucket`, `prefix`, `err`. -/
def parseS3Url (url : String) : String × String × Option GoError :=
  if !stringsHasPrefix url "s3://" then
    ("", "", some (.errorf "invalid S3 URL, missing 's3://' prefix"))
  else
    let trimmedS3URL := stringsTrimPrefix url "s3://"
    let splitPos := stringsIndex trimmedS3URL "/"
    if splitPos = -1 then
      ("", "", some (.errorf "invalid S3 URL, no '/' found after bucket name"))
    else
      let bucket : String := ⟨trimmedS3URL.data.take splitPos.toNat⟩
      let pre : String := ⟨trimmedS3URL.data.drop (splitPos.toNat + 1)⟩
      (bucket, pre, none)

/-! ## internal/processor/processor.go -/

/-- Modelled from the spec: the type `Fields` of `fields.go`, which is not among
the sources. It is the include and rename policy of the FieldSpec, seen through
the two methods `recordToLogEntry` calls: `IncludeField(i)` and
`GetFieldNameByIndex(i)` with its two results. -/
structure Fields where
  IncludeField : Nat → Bool
  GetFieldNameByIndex : Nat → String × Option GoError

/-- Modelled from the spec: the package variable `fieldNames` of `fields.go`,
which is not among the sources. Its length is the expected column count of a
raw record. `recordToLogEntry` reads index 1 of every record of that length
(`Timestamp should be at index 1`), so the table is taken to have at least two
columns: with a shorter table the read would be out of range. -/
structure FieldTable where
  names : List String
  hasTime : 1 < names.length

/-- The signature of `time.Parse(time.RFC3339, value)`. -/
abbrev TimeParse := String → Except GoError Time

/-- The loop of `recordToLogEntry` that fills `entryMap`, on the columns from
index `i` on. -/
def fillEntryMap (fields : Fields) : List String → Nat → GoMap → GoMap
  | [], _, entryMap => entryMap
  | value :: rest, i, entryMap =>
    if fields.IncludeField i then
      fillEntryMap fields rest (i + 1) (entryMap.set (fields.GetFieldNameByIndex i).1 value)
    else fillEntryMap fields rest (i + 1) entryMap

/-- The function `recordToLogEntry`. -/
def recordToLogEntry (timeParse : TimeParse) (fieldNames : FieldTable)
    (record : List String) (fields : Fields) : Except GoError LogEntry :=
  if h : record.length ≠ fieldNames.names.length then
    .error (.errorf ("invalid log format: expected " ++ toString fieldNames.names.length ++
      " fields, got " ++ toString record.length))
  else
    match timeParse (record.get ⟨1, by have h1 := fieldNames.hasTime; omega⟩) with
    | .error err => .error (.errorf ("error parsing timestamp: " ++ err.Error))
    | .ok timestamp => .ok ⟨fillEntryMap fields record 0 [], timestamp⟩

/-- The result of one `csvReader.Read()` before `io.EOF`: a record, or a read
error (a malformed line, or an error of the decompressed stream such as a
truncated gzip payload). -/
abbrev ReadResult := Except GoError (List String)

/-- The function `processRecords` on the results the csv reader gives before
`io.EOF`: the entries sent to `entryChan`, in order, and the error returned. -/
def processRecords (timeParse : TimeParse) (fieldNames : FieldTable) (fields : Fields) :
    List ReadResult → List LogEntry × Option GoError
  | [] => ([], none)
  | .error err :: _ => ([], some (.errorf ("error reading a record: " ++ err.Error)))
  | .ok record :: rest =>
    match recordToLogEntry timeParse fieldNames record fields with
    | .error err => ([], some err)
    | .ok entry =>
      let r := processRecords timeParse fieldNames fields rest
      (entry :: r.1, r.2)

/-- The interface `S3Api`, as far as `ProcessLogs` uses it: `GetObject` fails or
gives a body, and the body is what the csv reader reads from its decompressed
stream up to `io.EOF`. -/
structure S3Api where
  GetObject : S3ObjectInfo → Except GoError (List ReadResult)

/-- The struct `Config`. -/
structure Config where
  Targets : List Target
  Fields : Fields

/-- The struct `LogProcessor`. -/
structure LogProcessor where
  s3Client : S3Api
  config : Config

/-- The method `ProcessLogs`: the entries sent to `entryChan` and the error
returned. The error of `processRecords` is printed to the log and not
returned. -/
def ProcessLogs (timeParse : TimeParse) (fieldNames : FieldTable) (lp : LogProcessor)
    (s3Object : S3ObjectInfo) : List LogEntry × Option GoError :=
  match lp.s3Client.GetObject s3Object with
  | .error err => ([], some (.errorf ("failed to get object: " ++ err.Error)))
  | .ok body =>
    let r := processRecords timeParse fieldNames lp.config.Fields body
    (r.1, none)

/-! ## internal/processor/handlers.go: processS3Objects -/

/-- The constant `concurrency`. -/
def concurrency : Nat := 10

/-- The state of `processS3Objects` while its goroutines run: the objects the
loop has not reached, the objects whose goroutine holds a slot of `concurrent`,
the contents of the channel `errs` in send order, and the arguments of the
calls of `ProcessLogs` made so far. -/
structure PoolState where
  pending : List S3ObjectInfo
  running : List S3ObjectInfo
  errs : List GoError
  calls : List S3ObjectInfo
  deriving DecidableEq, Repr

/-- The error a goroutine sends on `errs`:
`fmt.Errorf("error processing logs for s3://%s/%s: %w", bucket, key, err)`. -/
def objectError (s3obj : S3ObjectInfo) (err : GoError) : GoError :=
  .wrapf ("error processing logs for s3://" ++ s3obj.Bucket ++ "/" ++ s3obj.Key ++ ": " ++
    err.Error) err

/-- One iteration of the loop over `s3Objects`: a slot of `concurrent` is
taken and the goroutine of the next object starts. -/
def launch (st : PoolState) : PoolState :=
  match st.pending with
  | [] => st
  | s3obj :: rest => { st with pending := rest, running := st.running ++ [s3obj] }

/-- The goroutine at position `i` among the running ones runs to its end: it
calls `ProcessLogs`, sends the wrapped error on `errs` when there is one, and
releases its slot. -/
def finish (processLogs : S3ObjectInfo → Option GoError) (st : PoolState) (i : Nat) :
    PoolState :=
  match st.running[i]? with
  | none => st
  | some s3obj =>
    { st with
      running := st.running.eraseIdx i
      errs := match processLogs s3obj with
        | none => st.errs
        | some err => st.errs ++ [objectError s3obj err]
      calls := st.calls ++ [s3obj] }

/-- One step of the scheduler. With no goroutine running the loop starts the
next one. Otherwise the choice `0` lets the loop start the next goroutine when
an object is left and fewer than `concurrency` goroutines hold a slot; any
other choice, and the choice `0` when the loop is blocked or done, lets a
running goroutine finish. -/
def poolStep (processLogs : S3ObjectInfo → Option GoError) (choice : Nat)
    (st : PoolState) : PoolState :=
  if st.running.length = 0 then launch st
  else if choice = 0 ∧ st.pending.length > 0 ∧ st.running.length < concurrency then launch st
  else finish processLogs st (choice % st.running.length)

/-- The scheduler run for `n` steps under the choices `sched`, zeros being
taken once the list is used up. -/
def poolRun (processLogs : S3ObjectInfo → Option GoError) :
    Nat → List Nat → PoolState → PoolState
  | 0, _, st => st
  | n + 1, sched, st =>
    poolRun processLogs n sched.tail (poolStep processLogs (sched.headD 0) st)

/-- The value `errorList` of `processS3Objects` under the schedule `sched`:
what is read from `errs` once every goroutine is done. Each object takes two
steps, its start and its end. -/
def errorList (processLogs : S3ObjectInfo → Option GoError) (s3Objects : List S3ObjectInfo)
    (sched : List Nat) : List GoError :=
  (poolRun processLogs (2 * s3Objects.length) sched ⟨s3Objects, [], [], []⟩).errs

/-- The text `%v` gives for a slice of errors: the messages between brackets,
separated by a space. -/
def formatErrors (errs : List GoError) : String :=
  "[" ++ " ".intercalate (errs.map GoError.Error) ++ "]"

/-- The aggregate error `fmt.Errorf("encountered errors: %v", errorList)`. -/
def aggregateError (errs : List GoError) : GoError :=
  .errorf ("encountered errors: " ++ formatErrors errs)

/-- The method `processS3Objects` under the schedule `sched` of its goroutines. -/
def processS3Objects (timeParse : TimeParse) (fieldNames : FieldTable) (lp : LogProcessor)
    (s3Objects : List S3ObjectInfo) (sched : List Nat) : Option GoError :=
  let errs := errorList (fun o => (ProcessLogs timeParse fieldNames lp o).2) s3Objects sched
  if errs.length > 0 then some (aggregateError errs) else none

/-- The arguments of the calls of `ProcessLogs` that `processS3Objects` makes
under the schedule `sched`, in the order the calls end. -/
def callsMade (processLogs : S3ObjectInfo → Option GoError) (s3Objects : List S3ObjectInfo)
    (sched : List Nat) : List S3ObjectInfo :=
  (poolRun processLogs (2 * s3Objects.length) sched ⟨s3Objects, [], [], []⟩).calls

/-! ## Inputs of the examples -/

/-- An encoder for the examples: the bytes of the JSON object `{"m":"..."}`
whose one member is the value of the key `m`. It is what `json.Marshal` gives
for a map with the one key `m` and a value of letters and digits. -/
def exampleMarshal : Marshal := fun data =>
  .ok ([123, 34, 109, 34, 58, 34] ++
    ((data.get "m").getD "").data.map (fun c => c.toNat.toUInt8) ++ [34, 125])

/-- An entry whose one value is `n` letters `a`, with the timestamp `sec`. -/
def entryOfSize (n : Nat) (sec : Int) : LogEntry :=
  ⟨[("m", String.mk (List.replicate n 'a'))], ⟨sec, 0⟩⟩

/-- A parser for the examples: it knows two RFC3339 instants. -/
def exampleTimeParse : TimeParse := fun value =>
  if value = "2024-11-17T12:00:00Z" then .ok ⟨1731844800, 0⟩
  else if value = "2024-11-17T13:00:00Z" then .ok ⟨1731848400, 0⟩
  else .error (.errorf ("parsing time \"" ++ value ++ "\": cannot parse as RFC3339"))

/-- A table of three columns for the examples. -/
def exampleFieldNames : FieldTable := ⟨["type", "time", "elb"], by decide⟩

/-- A policy for the examples: the columns 1 and 2 are kept under the names of
the table, the column 0 is left out. -/
def exampleFields : Fields :=
  ⟨fun i => decide (i = 1) || decide (i = 2),
    fun i => match ["type", "time", "elb"][i]? with
      | some name => (name, none)
      | none => ("", some (.errorf "index out of range"))⟩

/-- A store for the examples: `good.gz` holds one well-formed record,
`short.gz` a record of two columns, `truncated.gz` a gzip payload that ends
early, and any other key is missing. -/
def exampleS3 : S3Api :=
  ⟨fun o =>
    if o.Key = "good.gz" then .ok [.ok ["http", "2024-11-17T12:00:00Z", "lb"]]
    else if o.Key = "short.gz" then .ok [.ok ["http", "2024-11-17T12:00:00Z"]]
    else if o.Key = "truncated.gz" then .ok [.error (.errorf "unexpected EOF")]
    else .error (.errorf "NoSuchKey")⟩

/-- A processor for the examples, with the console target. -/
def exampleProcessor : LogProcessor := ⟨exampleS3, ⟨[Target.stdout], exampleFields⟩⟩

/-! ## Notions used in the statements -/

/-- The consecutive chunks of a list: `k` elements each, the last chunk holding
what remains. -/
def chunksOf {α : Type} (k : Nat) : List α → List (List α)
  | [] => []
  | x :: xs => (x :: xs.take (k - 1)) :: chunksOf k (xs.drop (k - 1))
termination_by l => l.length
decreasing_by
  simp only [List.length_drop, List.length_cons]
  omega

/-- The invariant of the loop of `SendLogs`: the size counter is the payload of
the pending events, the pending events and every batch sent respect the count
ceiling, and respect the size ceiling unless they hold a single event; no
batch sent is empty. -/
def BatchInv (s : BatchState) : Prop :=
  s.currentBatchSize = payload s.events ∧
  s.events.length ≤ maxBatchCount ∧
  (payload s.events ≤ maxBatchSize ∨ s.events.length ≤ 1) ∧
  ∀ b ∈ s.sent, b ≠ [] ∧ b.length ≤ maxBatchCount ∧ (payload b ≤ maxBatchSize ∨ b.length = 1)

/-- The invariant of the scheduler of `processS3Objects`: every object is
waiting, running or done, once; and `errs` holds the wrapped error of each call
that ended with an error, in the order the calls ended. -/
def PoolInv (processLogs : S3ObjectInfo → Option GoError) (s3Objects : List S3ObjectInfo)
    (st : PoolState) : Prop :=
  (st.calls ++ st.running ++ st.pending).Perm s3Objects ∧
  st.errs = st.calls.filterMap (fun o => (processLogs o).map (objectError o))

/-- The number of scheduler steps left: two for an object that waits, one for a
goroutine that runs. -/
def poolMeasure (st : PoolState) : Nat :=
  2 * st.pending.length + st.running.length

/-! ## Lemmas on the batching loop -/

theorem payload_nil : payload [] = 0 := rfl

theorem payload_append (a b : List InputLogEvent) :
    payload (a ++ b) = payload a + payload b := by
  simp [payload]

theorem payload_singleton (e : InputLogEvent) : payload [e] = e.Message.length + 26 := by
  simp [payload]

theorem payload_perm {a b : List InputLogEvent} (h : a.Perm b) : payload a = payload b := by
  unfold payload
  exact (h.map _).sum_eq

theorem batchInv_init : BatchInv BatchState.init := by
  simp [BatchInv, BatchState.init, payload]

theorem batchInv_onTick {s : BatchState} (h : BatchInv s) : BatchInv (onTick s) := by
  obtain ⟨h1, h2, h3, h4⟩ := h
  unfold onTick
  split
  · rename_i hpos
    refine ⟨rfl, by simp, Or.inl (by simp [payload]), ?_⟩
    intro b hb
    rcases List.mem_append.mp hb with hb | hb
    · exact h4 b hb
    · have hbe : b = s.events := by simpa using hb
      subst hbe
      refine ⟨?_, h2, ?_⟩
      · intro hnil
        rw [hnil] at hpos
        simp at hpos
      · rcases h3 with h3 | h3
        · exact Or.inl h3
        · exact Or.inr (by omega)
  · exact ⟨h1, h2, h3, h4⟩

theorem batchInv_onEntry (jsonMarshal : Marshal) {s : BatchState} (h : BatchInv s)
    (e : LogEntry) : BatchInv (onEntry jsonMarshal s e) := by
  obtain ⟨h1, h2, h3, h4⟩ := h
  unfold onEntry
  split
  · exact ⟨h1, h2, h3, h4⟩
  · rename_i jsonData _
    simp only
    split
    · rename_i hc
      obtain ⟨hpos, _⟩ := hc
      refine ⟨by simp [payload], by simp [maxBatchCount], Or.inr (by simp), ?_⟩
      intro b hb
      rcases List.mem_append.mp hb with hb | hb
      · exact h4 b hb
      · have hbe : b = s.events := by simpa using hb
        subst hbe
        refine ⟨?_, h2, ?_⟩
        · intro hnil
          rw [hnil] at hpos
          simp at hpos
        · rcases h3 with h3 | h3
          · exact Or.inl h3
          · exact Or.inr (by omega)
    · rename_i hc
      have hc1 : s.events.length = 0 ∨
          (s.currentBatchSize + (jsonData.length + 26) ≤ maxBatchSize ∧
            s.events.length < maxBatchCount) := by
        by_cases h0 : s.events.length = 0
        · exact Or.inl h0
        · right
          constructor
          · by_contra hgt
            exact hc ⟨by omega, Or.inl (by omega)⟩
          · by_contra hge
            exact hc ⟨by omega, Or.inr (by omega)⟩
      refine ⟨?_, ?_, ?_, h4⟩
      · rw [payload_append, payload_singleton, h1]
      · rcases hc1 with h0 | ⟨_, hlt⟩
        · simp [h0, maxBatchCount]
        · simp only [List.length_append, List.length_singleton]
          omega
      · rcases hc1 with h0 | ⟨hle, _⟩
        · right
          simp [h0]
        · left
          rw [payload_append, payload_singleton, ← h1]
          exact hle

theorem batchInv_runLoop (jsonMarshal : Marshal) (msgs : List Msg) {s : BatchState}
    (h : BatchInv s) : BatchInv (runLoop jsonMarshal s msgs) := by
  induction msgs generalizing s with
  | nil => exact h
  | cons m ms ih =>
    have hstep : BatchInv (stepMsg jsonMarshal s m) := by
      cases m with
      | entry e => exact batchInv_onEntry jsonMarshal h e
      | tick => exact batchInv_onTick h
    exact ih hstep

theorem batchInv_onClose {s : BatchState} (h : BatchInv s) :
    ∀ b ∈ onClose s,
      b ≠ [] ∧ b.length ≤ maxBatchCount ∧ (payload b ≤ maxBatchSize ∨ b.length = 1) := by
  obtain ⟨_, h2, h3, h4⟩ := h
  intro b hb
  unfold onClose at hb
  split at hb
  · rename_i hpos
    rcases List.mem_append.mp hb with hb | hb
    · exact h4 b hb
    · have hbe : b = s.events := by simpa using hb
      subst hbe
      refine ⟨?_, h2, ?_⟩
      · intro hnil
        rw [hnil] at hpos
        simp at hpos
      · rcases h3 with h3 | h3
        · exact Or.inl h3
        · exact Or.inr (by omega)
  · exact h4 b hb

theorem sendLogs_batches (jsonMarshal : Marshal) (msgs : List Msg) :
    ∀ b ∈ SendLogs jsonMarshal msgs,
      b ≠ [] ∧ b.length ≤ maxBatchCount ∧ (payload b ≤ maxBatchSize ∨ b.length = 1) :=
  batchInv_onClose (batchInv_runLoop jsonMarshal msgs batchInv_init)

/-! ## Lemmas on the sort of `sendBatch` -/

theorem moveLeft_perm (less : InputLogEvent → InputLogEvent → Bool) (x : InputLogEvent)
    (l : List InputLogEvent) : (moveLeft less x l).Perm (x :: l) := by
  induction l with
  | nil => exact List.Perm.refl _
  | cons y ys ih =>
    unfold moveLeft
    split
    · exact ((List.Perm.cons y ih).trans (List.Perm.swap x y ys))
    · exact List.Perm.refl _

theorem foldl_moveLeft_perm (less : InputLogEvent → InputLogEvent → Bool)
    (xs acc : List InputLogEvent) :
    (xs.foldl (fun sortedRev x => moveLeft less x sortedRev) acc).Perm (xs ++ acc) := by
  induction xs generalizing acc with
  | nil => exact List.Perm.refl _
  | cons x xs ih =>
    simp only [List.foldl_cons, List.cons_append]
    refine (ih (moveLeft less x acc)).trans ?_
    refine ((List.Perm.append_left xs (moveLeft_perm less x acc)).trans ?_)
    exact List.perm_middle

theorem moveLeft_ordered (less : InputLogEvent → InputLogEvent → Bool)
    (hirr : ∀ a, less a a = false)
    (htrans : ∀ a b c, less a b = true → less b c = true → less a c = true)
    (hneg : ∀ a b c, less a b = false → less b c = false → less a c = false)
    (x : InputLogEvent) (l : List InputLogEvent)
    (h : l.Pairwise (fun a b => less a b = false)) :
    (moveLeft less x l).Pairwise (fun a b => less a b = false) := by
  induction l with
  | nil => simp [moveLeft]
  | cons y ys ih =>
    obtain ⟨hy, hys⟩ := List.pairwise_cons.mp h
    unfold moveLeft
    split
    · rename_i hlt
      refine List.pairwise_cons.mpr ⟨?_, ih hys⟩
      intro z hz
      have hz1 : z ∈ x :: ys := (moveLeft_perm less x ys).subset hz
      rcases List.mem_cons.mp hz1 with hzx | hzy
      · subst hzx
        cases hyz : less y z with
        | false => rfl
        | true =>
          have hzz := htrans z y z hlt hyz
          rw [hirr z] at hzz
          exact absurd hzz (by simp)
      · exact hy z hzy
    · rename_i hge
      have hge1 : less x y = false := by simpa using hge
      refine List.pairwise_cons.mpr ⟨?_, h⟩
      intro z hz
      rcases List.mem_cons.mp hz with hzy | hzy
      · subst hzy
        exact hge1
      · exact hneg x y z hge1 (hy z hzy)

theorem insertionSort_contract : SortSliceContract insertionSort := by
  intro less xs hirr htrans hneg
  constructor
  · unfold insertionSort
    refine (List.reverse_perm _).trans ?_
    simpa using foldl_moveLeft_perm less xs []
  · unfold insertionSort
    rw [List.pairwise_reverse]
    have hfold : ∀ (ys acc : List InputLogEvent),
        acc.Pairwise (fun a b => less a b = false) →
        (ys.foldl (fun sortedRev x => moveLeft less x sortedRev) acc).Pairwise
          (fun a b => less a b = false) := by
      intro ys
      induction ys with
      | nil => exact fun acc h => h
      | cons y ys ih =>
        exact fun acc h => ih _ (moveLeft_ordered less hirr htrans hneg y acc h)
    exact hfold xs [] List.Pairwise.nil

theorem lessByTimestamp_irrefl (a : InputLogEvent) : lessByTimestamp a a = false := by
  simp [lessByTimestamp]

theorem lessByTimestamp_trans (a b c : InputLogEvent) (h1 : lessByTimestamp a b = true)
    (h2 : lessByTimestamp b c = true) : lessByTimestamp a c = true := by
  simp only [lessByTimestamp, decide_eq_true_eq] at h1 h2 ⊢
  exact lt_trans h1 h2

theorem lessByTimestamp_negTrans (a b c : InputLogEvent) (h1 : lessByTimestamp a b = false)
    (h2 : lessByTimestamp b c = false) : lessByTimestamp a c = false := by
  simp only [lessByTimestamp, decide_eq_false_iff_not, not_lt] at h1 h2 ⊢
  exact le_trans h2 h1

theorem sendBatch_perm (sortSlice : SortSlice) (hsort : SortSliceContract sortSlice)
    (events : List InputLogEvent) : (sendBatch sortSlice events).Perm events :=
  (hsort lessByTimestamp events lessByTimestamp_irrefl lessByTimestamp_trans
    lessByTimestamp_negTrans).1

theorem sendBatch_ascending (sortSlice : SortSlice) (hsort : SortSliceContract sortSlice)
    (events : List InputLogEvent) :
    (sendBatch sortSlice events).Pairwise (fun a b => a.Timestamp ≤ b.Timestamp) := by
  have h := (hsort lessByTimestamp events lessByTimestamp_irrefl lessByTimestamp_trans
    lessByTimestamp_negTrans).2
  refine List.Pairwise.imp ?_ h
  intro a b hba
  simp only [lessByTimestamp, decide_eq_false_iff_not, not_lt] at hba
  exact hba

/-! ## Lemmas on what the loop of `SendLogs` keeps -/

theorem onTick_keeps (s : BatchState) :
    (onTick s).sent.flatten ++ (onTick s).events = s.sent.flatten ++ s.events := by
  unfold onTick
  split <;> simp

theorem onEntry_keeps (jsonMarshal : Marshal) (s : BatchState) (e : LogEntry) :
    (onEntry jsonMarshal s e).sent.flatten ++ (onEntry jsonMarshal s e).events =
      s.sent.flatten ++ s.events ++ (eventOf jsonMarshal e).toList := by
  unfold onEntry eventOf
  split
  · simp
  · simp only
    split <;> simp

theorem runLoop_keeps (jsonMarshal : Marshal) (msgs : List Msg) (s : BatchState) :
    (runLoop jsonMarshal s msgs).sent.flatten ++ (runLoop jsonMarshal s msgs).events =
      s.sent.flatten ++ s.events ++ eventsOf jsonMarshal msgs := by
  induction msgs generalizing s with
  | nil => simp [runLoop, eventsOf]
  | cons m ms ih =>
    have hrun : runLoop jsonMarshal s (m :: ms) =
        runLoop jsonMarshal (stepMsg jsonMarshal s m) ms := rfl
    rw [hrun, ih]
    cases m with
    | entry e =>
      have hev : eventsOf jsonMarshal (Msg.entry e :: ms) =
          (eventOf jsonMarshal e).toList ++ eventsOf jsonMarshal ms := by
        unfold eventsOf
        cases hq : eventOf jsonMarshal e <;> simp [List.filterMap_cons, hq]
      rw [hev]
      simp only [stepMsg]
      rw [onEntry_keeps]
      simp [List.append_assoc]
    | tick =>
      have hev : eventsOf jsonMarshal (Msg.tick :: ms) = eventsOf jsonMarshal ms := by
        simp [eventsOf, List.filterMap_cons]
      rw [hev]
      simp only [stepMsg]
      rw [onTick_keeps]

theorem onClose_join (s : BatchState) : (onClose s).flatten = s.sent.flatten ++ s.events := by
  unfold onClose
  split
  · simp
  · rename_i h
    have h0 : s.events = [] := by
      cases hs : s.events with
      | nil => rfl
      | cons a l =>
        rw [hs] at h
        simp at h
    simp [h0]

theorem sendLogs_join (jsonMarshal : Marshal) (msgs : List Msg) :
    (SendLogs jsonMarshal msgs).flatten = eventsOf jsonMarshal msgs := by
  unfold SendLogs
  rw [onClose_join, runLoop_keeps]
  simp [BatchState.init]

/-! ## Lemmas on chunks -/

theorem chunksOf_nil {α : Type} (k : Nat) : chunksOf k ([] : List α) = [] := by
  rw [chunksOf]

theorem chunksOf_cons {α : Type} (k : Nat) (x : α) (xs : List α) :
    chunksOf k (x :: xs) = (x :: xs.take (k - 1)) :: chunksOf k (xs.drop (k - 1)) := by
  rw [chunksOf]

theorem chunksOf_eq_take_drop {α : Type} (k : Nat) (hk : 0 < k) (l : List α) (hl : l ≠ []) :
    chunksOf k l = l.take k :: chunksOf k (l.drop k) := by
  cases l with
  | nil => exact absurd rfl hl
  | cons x xs =>
    obtain ⟨j, rfl⟩ : ∃ j, k = j + 1 := ⟨k - 1, by omega⟩
    rw [chunksOf_cons]
    simp

theorem chunksOf_short {α : Type} (k : Nat) (hk : 0 < k) (l : List α) (hl : l ≠ [])
    (hlen : l.length ≤ k) : chunksOf k l = [l] := by
  rw [chunksOf_eq_take_drop k hk l hl, List.take_of_length_le hlen,
    List.drop_of_length_le hlen, chunksOf_nil]

theorem chunksOf_full_append {α : Type} (k : Nat) (hk : 0 < k) (a b : List α)
    (ha : a.length = k) : chunksOf k (a ++ b) = a :: chunksOf k b := by
  have hne : a ++ b ≠ [] := by
    intro h
    have h0 : (a ++ b).length = 0 := by rw [h]; rfl
    rw [List.length_append] at h0
    omega
  rw [chunksOf_eq_take_drop k hk _ hne]
  have ht : (a ++ b).take k = a := by
    rw [← ha]
    exact List.take_left' rfl
  have hd : (a ++ b).drop k = b := by
    rw [← ha]
    exact List.drop_left' rfl
  rw [ht, hd]

theorem chunksOf_head_extends {α : Type} (k : Nat) (hk : 0 < k) (a b : List α) (ha : a ≠ [])
    (hlen : a.length ≤ k) : ∃ c ∈ chunksOf k (a ++ b), ∃ t, c = a ++ t := by
  have hne : a ++ b ≠ [] := by
    intro h
    exact ha (List.append_eq_nil.mp h).1
  rw [chunksOf_eq_take_drop k hk _ hne]
  refine ⟨(a ++ b).take k, List.mem_cons_self _ _, b.take (k - a.length), ?_⟩
  rw [List.take_append_eq_append_take, List.take_of_length_le hlen]

theorem chunksOf_length {α : Type} (k : Nat) (hk : 0 < k) (l : List α) :
    (chunksOf k l).length = (l.length + (k - 1)) / k := by
  generalize hn : l.length = n
  induction n using Nat.strong_induction_on generalizing l with
  | _ n ih =>
    by_cases hl : l = []
    · subst hl
      simp only [List.length_nil] at hn
      subst hn
      rw [chunksOf_nil]
      simp only [List.length_nil, Nat.zero_add]
      exact (Nat.div_eq_of_lt (by omega)).symm
    · have hpos : 0 < l.length := List.length_pos.mpr hl
      rw [chunksOf_eq_take_drop k hk l hl, List.length_cons,
        ih (l.drop k).length (by rw [List.length_drop]; omega) (l.drop k) rfl,
        List.length_drop]
      by_cases hge : k ≤ n
      · have h1 : n + (k - 1) = (n - k + (k - 1)) + k := by omega
        rw [hn, h1, Nat.add_div_right _ hk]
      · have h1 : n - k + (k - 1) < k := by omega
        have h2 : (n + (k - 1)) / k = 1 := by
          apply Nat.div_eq_of_lt_le <;> omega
        rw [hn, Nat.div_eq_of_lt h1, h2]

/-! ## The loop of `SendLogs` without ticks -/

theorem eventsOf_entry_cons (jsonMarshal : Marshal) (e : LogEntry) (ms : List Msg) :
    eventsOf jsonMarshal (Msg.entry e :: ms) =
      (eventOf jsonMarshal e).toList ++ eventsOf jsonMarshal ms := by
  unfold eventsOf
  cases hq : eventOf jsonMarshal e <;> simp [List.filterMap_cons, hq]

theorem runLoop_entries_chunks (jsonMarshal : Marshal) (es : List LogEntry) (s : BatchState)
    (hsize : s.currentBatchSize = payload s.events)
    (hlen : s.events.length ≤ maxBatchCount)
    (hfit : ∀ c ∈ chunksOf maxBatchCount (s.events ++ eventsOf jsonMarshal (es.map Msg.entry)),
      payload c ≤ maxBatchSize) :
    onClose (runLoop jsonMarshal s (es.map Msg.entry)) =
      s.sent ++ chunksOf maxBatchCount (s.events ++ eventsOf jsonMarshal (es.map Msg.entry)) := by
  have hk : 0 < maxBatchCount := by decide
  induction es generalizing s with
  | nil =>
    simp only [List.map_nil, runLoop, List.foldl_nil, eventsOf, List.filterMap_nil,
      List.append_nil]
    unfold onClose
    split
    · rename_i hpos
      rw [chunksOf_short _ hk _ (List.length_pos.mp hpos) hlen]
    · rename_i hpos
      have h0 : s.events = [] := by
        cases hs : s.events with
        | nil => rfl
        | cons a l =>
          rw [hs] at hpos
          simp at hpos
      rw [h0, chunksOf_nil, List.append_nil]
  | cons e es ih =>
    have hrun : runLoop jsonMarshal s ((e :: es).map Msg.entry) =
        runLoop jsonMarshal (onEntry jsonMarshal s e) (es.map Msg.entry) := rfl
    have hev : eventsOf jsonMarshal ((e :: es).map Msg.entry) =
        (eventOf jsonMarshal e).toList ++ eventsOf jsonMarshal (es.map Msg.entry) := by
      rw [List.map_cons, eventsOf_entry_cons]
    rw [hrun, hev]
    rw [hev] at hfit
    cases hm : jsonMarshal e.Data with
    | error err =>
      have hstep : onEntry jsonMarshal s e = s := by
        unfold onEntry
        rw [hm]
      have hnone : eventOf jsonMarshal e = none := by
        unfold eventOf
        rw [hm]
      rw [hstep, hnone]
      rw [hnone] at hfit
      exact ih s hsize hlen hfit
    | ok jsonData =>
      have hsome : eventOf jsonMarshal e = some ⟨jsonData, e.Timestamp.UnixMilli⟩ := by
        unfold eventOf
        rw [hm]
      rw [hsome] at hfit ⊢
      simp only [Option.toList_some] at hfit ⊢
      by_cases hfull : s.events.length ≥ maxBatchCount
      · have hlenK : s.events.length = maxBatchCount := by omega
        have hstep : onEntry jsonMarshal s e =
            ⟨[⟨jsonData, e.Timestamp.UnixMilli⟩], jsonData.length + 26,
              s.sent ++ [s.events]⟩ := by
          unfold onEntry
          rw [hm]
          simp only
          rw [if_pos ⟨by omega, Or.inr hfull⟩]
          simp
        rw [chunksOf_full_append _ hk _ _ hlenK] at hfit ⊢
        rw [hstep]
        rw [ih _ (by simp [payload]) (by simp [maxBatchCount])
          (fun c hc => hfit c (List.mem_cons_of_mem _ hc))]
        simp
      · have hlt : s.events.length < maxBatchCount := by omega
        have hfitsNow : s.events ≠ [] →
            s.currentBatchSize + (jsonData.length + 26) ≤ maxBatchSize := by
          intro hne
          have hne1 : s.events ++ [(⟨jsonData, e.Timestamp.UnixMilli⟩ : InputLogEvent)] ≠ [] := by
            simp
          obtain ⟨c, hc, t, hct⟩ := chunksOf_head_extends maxBatchCount hk
            (s.events ++ [(⟨jsonData, e.Timestamp.UnixMilli⟩ : InputLogEvent)])
            (eventsOf jsonMarshal (es.map Msg.entry)) hne1
            (by simp only [List.length_append, List.length_singleton]; omega)
          have hc1 : c ∈ chunksOf maxBatchCount
              (s.events ++ ([(⟨jsonData, e.Timestamp.UnixMilli⟩ : InputLogEvent)] ++
                eventsOf jsonMarshal (es.map Msg.entry))) := by
            rw [← List.append_assoc]
            exact hc
          have hle := hfit c hc1
          rw [hct, payload_append, payload_append, payload_singleton] at hle
          rw [hsize]
          simp only at hle
          omega
        have hstep : onEntry jsonMarshal s e =
            ⟨s.events ++ [⟨jsonData, e.Timestamp.UnixMilli⟩],
              s.currentBatchSize + (jsonData.length + 26), s.sent⟩ := by
          unfold onEntry
          rw [hm]
          simp only
          rw [if_neg]
          intro hcond
          obtain ⟨hpos, hor⟩ := hcond
          rcases hor with hgt | hge
          · have := hfitsNow (List.length_pos.mp hpos)
            omega
          · omega
        rw [hstep]
        rw [ih _ (by simp only []; rw [payload_append, payload_singleton, hsize])
          (by simp only [List.length_append, List.length_singleton]; omega)
          (by simpa [List.append_assoc] using hfit)]
        simp [List.append_assoc]

/-! ## Lemmas on `parseS3Url` -/

theorem indexFrom_slash_absent (l : List Char) (i : Nat) (h : '/' ∉ l) :
    indexFrom ['/'] l i = -1 := by
  induction l generalizing i with
  | nil => simp [indexFrom]
  | cons c cs ih =>
    have hc : c ≠ '/' := fun hc => h (by simp [hc])
    have hcs : '/' ∉ cs := fun hcs => h (List.mem_cons_of_mem _ hcs)
    have hc2 : ¬ ('/' = c) := fun e => hc e.symm
    simp [indexFrom, List.isPrefixOf, hc2, ih _ hcs]

theorem indexFrom_slash_split (b k : List Char) (i : Nat) (h : '/' ∉ b) :
    indexFrom ['/'] (b ++ '/' :: k) i = ((i + b.length : Nat) : Int) := by
  induction b generalizing i with
  | nil => simp [indexFrom, List.isPrefixOf]
  | cons c cs ih =>
    have hc : c ≠ '/' := fun hc => h (by simp [hc])
    have hcs : '/' ∉ cs := fun hcs => h (List.mem_cons_of_mem _ hcs)
    have hc2 : ¬ ('/' = c) := fun e => hc e.symm
    have hstep : indexFrom ['/'] (c :: cs ++ '/' :: k) i =
        indexFrom ['/'] (cs ++ '/' :: k) (i + 1) := by
      simp [indexFrom, List.isPrefixOf, hc2]
    rw [hstep, ih _ hcs]
    simp only [List.length_cons]
    congr 1
    omega

theorem split_first_slash (l : List Char) (h : '/' ∈ l) :
    ∃ b k, l = b ++ '/' :: k ∧ '/' ∉ b := by
  induction l with
  | nil => simp at h
  | cons c cs ih =>
    by_cases hc : c = '/'
    · exact ⟨[], cs, by simp [hc], by simp⟩
    · have hcs : '/' ∈ cs := by
        rcases List.mem_cons.mp h with h1 | h1
        · exact absurd h1.symm hc
        · exact h1
      obtain ⟨b, k, hbk, hb⟩ := ih hcs
      refine ⟨c :: b, k, by simp [hbk], ?_⟩
      intro hmem
      rcases List.mem_cons.mp hmem with h1 | h1
      · exact hc h1.symm
      · exact hb h1

theorem parseS3Url_prefix_missing (url : String) (h : stringsHasPrefix url "s3://" = false) :
    parseS3Url url = ("", "", some (.errorf "invalid S3 URL, missing 's3://' prefix")) := by
  unfold parseS3Url
  simp [h]

theorem hasPrefix_data (url : String) (h : stringsHasPrefix url "s3://" = true) :
    url.data = ['s', '3', ':', '/', '/'] ++ url.data.drop 5 := by
  unfold stringsHasPrefix at h
  have hp : ['s', '3', ':', '/', '/'] <+: url.data := List.isPrefixOf_iff_prefix.mp h
  obtain ⟨t, ht⟩ := hp
  rw [← ht]
  simp

theorem parseS3Url_no_slash (url : String) (h : stringsHasPrefix url "s3://" = true)
    (hno : '/' ∉ url.data.drop 5) :
    parseS3Url url =
      ("", "", some (.errorf "invalid S3 URL, no '/' found after bucket name")) := by
  have hidx : stringsIndex (stringsTrimPrefix url "s3://") "/" = -1 := by
    unfold stringsIndex stringsTrimPrefix
    rw [if_pos h]
    exact indexFrom_slash_absent _ 0 hno
  unfold parseS3Url
  simp [h, hidx]

theorem parseS3Url_split (url : String) (b k : List Char)
    (hurl : url.data = ['s', '3', ':', '/', '/'] ++ (b ++ '/' :: k)) (hb : '/' ∉ b) :
    parseS3Url url = (⟨b⟩, ⟨k⟩, none) := by
  have h : stringsHasPrefix url "s3://" = true := by
    unfold stringsHasPrefix
    apply List.isPrefixOf_iff_prefix.mpr
    exact ⟨b ++ '/' :: k, hurl.symm⟩
  have htrim : (stringsTrimPrefix url "s3://").data = b ++ '/' :: k := by
    unfold stringsTrimPrefix
    rw [if_pos h, hurl]
    rfl
  have hidx : stringsIndex (stringsTrimPrefix url "s3://") "/" = (b.length : Int) := by
    unfold stringsIndex
    rw [htrim]
    have := indexFrom_slash_split b k 0 hb
    simpa using this
  unfold parseS3Url
  have hne : ¬ ((b.length : Int) = -1) := by omega
  simp only [h, Bool.not_true, Bool.false_eq_true, if_false, hidx, hne, htrim, Int.toNat_ofNat]
  simp

/-! ## Lemmas on `GetTargets` -/

theorem foldl_addTarget_no_cloudwatch (newCloudWatchTarget : Except GoError Target)
    (entries : List String) (acc : List Target) (h : TargetCloudWatch ∉ entries) :
    entries.foldl (addTarget newCloudWatchTarget) acc =
      acc ++ List.replicate (entries.count TargetStdout) Target.stdout := by
  induction entries generalizing acc with
  | nil => simp
  | cons t ts ih =>
    have ht : t ≠ TargetCloudWatch := fun e => h (by simp [e])
    have hts : TargetCloudWatch ∉ ts := fun e => h (List.mem_cons_of_mem _ e)
    rw [List.foldl_cons, ih _ hts]
    by_cases hs : t = TargetStdout
    · have hadd : addTarget newCloudWatchTarget acc t = acc ++ [Target.stdout] := by
        unfold addTarget
        rw [if_neg ht, if_pos hs]
        rfl
      rw [hadd, hs, List.count_cons_self, List.replicate_succ]
      simp
    · have hadd : addTarget newCloudWatchTarget acc t = acc := by
        unfold addTarget
        rw [if_neg ht, if_neg hs]
      have hs2 : ¬ (t == TargetStdout) = true := by simpa using hs
      rw [hadd, List.count_cons, if_neg hs2]
      simp

theorem getTargets_targets (newCloudWatchTarget : Except GoError Target) (targetsConfig : String)
    (h : TargetCloudWatch ∉ stringsSplit targetsConfig ',') :
    GetTargets newCloudWatchTarget targetsConfig =
      if (stringsSplit targetsConfig ',').count TargetStdout = 0 then
        ([], some (.errorf "error: no valid targets initialized"))
      else
        (List.replicate ((stringsSplit targetsConfig ',').count TargetStdout) Target.stdout,
          none) := by
  unfold GetTargets
  simp only [foldl_addTarget_no_cloudwatch newCloudWatchTarget _ [] h, List.nil_append,
    List.length_replicate]

/-! ## Lemmas on maps and on the loop of `recordToLogEntry` -/

theorem lookup_filter_ne (m : GoMap) (k k' : String) (h : k' ≠ k) :
    List.lookup k' (m.filter (fun p => p.1 != k)) = List.lookup k' m := by
  induction m with
  | nil => rfl
  | cons p ps ih =>
    obtain ⟨a, b⟩ := p
    by_cases ha : a = k
    · subst ha
      have hne : (k' == a) = false := by simpa using h
      simp [List.filter_cons, List.lookup_cons, hne, ih]
    · have hf : ((a, b).1 != k) = true := by simpa using ha
      rw [List.filter_cons, if_pos hf, List.lookup_cons, List.lookup_cons, ih]

theorem get_set_self (m : GoMap) (k v : String) : (m.set k v).get k = some v := by
  simp [GoMap.set, GoMap.get, List.lookup_cons]

theorem get_set_ne (m : GoMap) (k v k' : String) (h : k' ≠ k) :
    (m.set k v).get k' = m.get k' := by
  have hne : (k' == k) = false := by simpa using h
  simp only [GoMap.set, GoMap.get, List.lookup_cons, hne]
  exact lookup_filter_ne m k k' h

theorem keys_set (m : GoMap) (k v x : String) (hx : x ∈ (m.set k v).keys) :
    x = k ∨ x ∈ m.keys := by
  simp only [GoMap.set, GoMap.keys, List.map_cons, List.mem_cons, List.mem_map,
    List.mem_filter] at hx
  rcases hx with hx | ⟨p, ⟨hp, _⟩, hpx⟩
  · exact Or.inl hx
  · exact Or.inr (List.mem_map.mpr ⟨p, hp, hpx⟩)

theorem fillEntryMap_untouched (fields : Fields) (rest : List String) (i : Nat) (m : GoMap)
    (k : String)
    (h : ∀ j, i ≤ j → j < i + rest.length → fields.IncludeField j = true →
      (fields.GetFieldNameByIndex j).1 ≠ k) :
    (fillEntryMap fields rest i m).get k = m.get k := by
  induction rest generalizing i m with
  | nil => rfl
  | cons value rest ih =>
    have hrest : ∀ j, i + 1 ≤ j → j < i + 1 + rest.length → fields.IncludeField j = true →
        (fields.GetFieldNameByIndex j).1 ≠ k := by
      intro j h1 h2 h3
      exact h j (by omega) (by simp only [List.length_cons]; omega) h3
    unfold fillEntryMap
    split
    · rename_i hinc
      rw [ih (i + 1) _ hrest]
      have hne := h i (le_refl i) (by simp only [List.length_cons]; omega) hinc
      exact get_set_ne m _ value k (fun e => hne e.symm)
    · exact ih (i + 1) m hrest

theorem fillEntryMap_value (fields : Fields) (rest : List String) (i : Nat) (m : GoMap)
    (j : Nat) (hij : i ≤ j) (hj : j < i + rest.length) (hinc : fields.IncludeField j = true)
    (hlast : ∀ j', j < j' → j' < i + rest.length → fields.IncludeField j' = true →
      (fields.GetFieldNameByIndex j').1 ≠ (fields.GetFieldNameByIndex j).1) :
    (fillEntryMap fields rest i m).get (fields.GetFieldNameByIndex j).1 = rest[j - i]? := by
  induction rest generalizing i m with
  | nil =>
    simp only [List.length_nil] at hj
    omega
  | cons value rest ih =>
    by_cases hji : j = i
    · subst hji
      have hlater : ∀ j', j + 1 ≤ j' → j' < j + 1 + rest.length →
          fields.IncludeField j' = true →
          (fields.GetFieldNameByIndex j').1 ≠ (fields.GetFieldNameByIndex j).1 := by
        intro j' h1 h2 h3
        exact hlast j' (by omega) (by simp only [List.length_cons]; omega) h3
      unfold fillEntryMap
      rw [if_pos hinc, fillEntryMap_untouched fields rest (j + 1) _ _ hlater, get_set_self]
      simp
    · have hlast1 : ∀ j', j < j' → j' < i + 1 + rest.length →
          fields.IncludeField j' = true →
          (fields.GetFieldNameByIndex j').1 ≠ (fields.GetFieldNameByIndex j).1 := by
        intro j' h1 h2 h3
        exact hlast j' h1 (by simp only [List.length_cons]; omega) h3
      have hj1 : j < i + 1 + rest.length := by
        simp only [List.length_cons] at hj
        omega
      have hidx : j - i = (j - (i + 1)) + 1 := by omega
      unfold fillEntryMap
      split
      · rw [ih (i + 1) _ (by omega) hj1 hlast1, hidx, List.getElem?_cons_succ]
      · rw [ih (i + 1) _ (by omega) hj1 hlast1, hidx, List.getElem?_cons_succ]

theorem fillEntryMap_keys (fields : Fields) (rest : List String) (i : Nat) (m : GoMap)
    (k : String) (hk : k ∈ (fillEntryMap fields rest i m).keys) :
    k ∈ m.keys ∨ ∃ j, i ≤ j ∧ j < i + rest.length ∧ fields.IncludeField j = true ∧
      (fields.GetFieldNameByIndex j).1 = k := by
  induction rest generalizing i m with
  | nil => exact Or.inl hk
  | cons value rest ih =>
    unfold fillEntryMap at hk
    split at hk
    · rename_i hinc
      rcases ih (i + 1) _ hk with h1 | ⟨j, h1, h2, h3, h4⟩
      · rcases keys_set m _ value k h1 with h5 | h5
        · exact Or.inr ⟨i, le_refl i, by simp only [List.length_cons]; omega, hinc, h5.symm⟩
        · exact Or.inl h5
      · exact Or.inr ⟨j, by omega, by simp only [List.length_cons]; omega, h3, h4⟩
    · rcases ih (i + 1) _ hk with h1 | ⟨j, h1, h2, h3, h4⟩
      · exact Or.inl h1
      · exact Or.inr ⟨j, by omega, by simp only [List.length_cons]; omega, h3, h4⟩

/-! ## Lemmas on the scheduler of `processS3Objects` -/

theorem perm_cons_eraseIdx {α : Type} (l : List α) (i : Nat) (o : α) (h : l[i]? = some o) :
    l.Perm (o :: l.eraseIdx i) := by
  induction l generalizing i with
  | nil => simp at h
  | cons x xs ih =>
    cases i with
    | zero =>
      simp only [List.getElem?_cons_zero, Option.some.injEq] at h
      subst h
      exact List.Perm.refl _
    | succ i =>
      simp only [List.getElem?_cons_succ] at h
      simp only [List.eraseIdx_cons_succ]
      exact (List.Perm.cons x (ih i h)).trans (List.Perm.swap o x _)

theorem launch_inv (processLogs : S3ObjectInfo → Option GoError) (objs : List S3ObjectInfo)
    (st : PoolState) (h : PoolInv processLogs objs st) : PoolInv processLogs objs (launch st) := by
  obtain ⟨h1, h2⟩ := h
  unfold launch
  split
  · exact ⟨h1, h2⟩
  · rename_i o rest hp
    refine ⟨?_, h2⟩
    rw [hp] at h1
    simpa [List.append_assoc] using h1

theorem launch_measure (st : PoolState) (h : st.pending ≠ []) :
    poolMeasure (launch st) + 1 = poolMeasure st := by
  unfold launch poolMeasure
  split
  · rename_i hp
    exact absurd hp h
  · rename_i o rest hp
    simp only [hp, List.length_append, List.length_cons, List.length_nil]
    omega

theorem finish_inv (processLogs : S3ObjectInfo → Option GoError) (objs : List S3ObjectInfo)
    (st : PoolState) (i : Nat) (h : PoolInv processLogs objs st) :
    PoolInv processLogs objs (finish processLogs st i) := by
  obtain ⟨h1, h2⟩ := h
  unfold finish
  split
  · exact ⟨h1, h2⟩
  · rename_i o ho
    constructor
    · simp only
      refine List.Perm.trans ?_ h1
      have hp := perm_cons_eraseIdx st.running i o ho
      have hq : (st.calls ++ [o] ++ st.running.eraseIdx i).Perm (st.calls ++ st.running) := by
        rw [List.append_assoc]
        exact List.Perm.append_left st.calls hp.symm
      exact List.Perm.append_right st.pending hq
    · simp only
      rw [List.filterMap_append, ← h2]
      cases hpl : processLogs o <;> simp [hpl]

theorem finish_measure (processLogs : S3ObjectInfo → Option GoError) (st : PoolState) (i : Nat)
    (h : i < st.running.length) :
    poolMeasure (finish processLogs st i) + 1 = poolMeasure st := by
  unfold finish poolMeasure
  split
  · rename_i hn
    rw [List.getElem?_eq_none_iff] at hn
    omega
  · simp only [List.length_eraseIdx, h, if_true]
    omega

theorem poolStep_inv (processLogs : S3ObjectInfo → Option GoError) (objs : List S3ObjectInfo)
    (choice : Nat) (st : PoolState) (h : PoolInv processLogs objs st) :
    PoolInv processLogs objs (poolStep processLogs choice st) := by
  unfold poolStep
  split
  · exact launch_inv processLogs objs st h
  · split
    · exact launch_inv processLogs objs st h
    · exact finish_inv processLogs objs st _ h

theorem poolStep_measure (processLogs : S3ObjectInfo → Option GoError) (choice : Nat)
    (st : PoolState) :
    poolMeasure (poolStep processLogs choice st) = poolMeasure st - 1 := by
  unfold poolStep
  split
  · rename_i hr
    by_cases hp : st.pending = []
    · have hl : launch st = st := by
        unfold launch
        rw [hp]
      rw [hl]
      unfold poolMeasure
      rw [hp, hr]
      rfl
    · have := launch_measure st hp
      omega
  · rename_i hr
    split
    · rename_i hc
      have hp : st.pending ≠ [] := by
        intro hp
        rw [hp] at hc
        simp at hc
      have := launch_measure st hp
      omega
    · have hlt : choice % st.running.length < st.running.length :=
        Nat.mod_lt _ (Nat.pos_of_ne_zero hr)
      have := finish_measure processLogs st _ hlt
      omega

theorem poolRun_inv (processLogs : S3ObjectInfo → Option GoError) (objs : List S3ObjectInfo)
    (n : Nat) (sched : List Nat) (st : PoolState) (h : PoolInv processLogs objs st) :
    PoolInv processLogs objs (poolRun processLogs n sched st) := by
  induction n generalizing sched st with
  | zero => exact h
  | succ n ih =>
    unfold poolRun
    exact ih _ _ (poolStep_inv processLogs objs _ st h)

theorem poolRun_measure (processLogs : S3ObjectInfo → Option GoError) (n : Nat)
    (sched : List Nat) (st : PoolState) :
    poolMeasure (poolRun processLogs n sched st) = poolMeasure st - n := by
  induction n generalizing sched st with
  | zero => rfl
  | succ n ih =>
    unfold poolRun
    rw [ih, poolStep_measure]
    omega

theorem pool_final (processLogs : S3ObjectInfo → Option GoError) (objs : List S3ObjectInfo)
    (sched : List Nat) :
    (poolRun processLogs (2 * objs.length) sched ⟨objs, [], [], []⟩).pending = [] ∧
    (poolRun processLogs (2 * objs.length) sched ⟨objs, [], [], []⟩).running = [] ∧
    (callsMade processLogs objs sched).Perm objs ∧
    errorList processLogs objs sched =
      (callsMade processLogs objs sched).filterMap
        (fun o => (processLogs o).map (objectError o)) := by
  have hinit : PoolInv processLogs objs ⟨objs, [], [], []⟩ := by
    simp [PoolInv]
  have hinv := poolRun_inv processLogs objs (2 * objs.length) sched _ hinit
  have hm := poolRun_measure processLogs (2 * objs.length) sched ⟨objs, [], [], []⟩
  have hm0 : poolMeasure (poolRun processLogs (2 * objs.length) sched ⟨objs, [], [], []⟩) = 0 := by
    rw [hm]
    simp [poolMeasure]
  have hp : (poolRun processLogs (2 * objs.length) sched ⟨objs, [], [], []⟩).pending = [] := by
    unfold poolMeasure at hm0
    exact List.length_eq_zero.mp (by omega)
  have hr : (poolRun processLogs (2 * objs.length) sched ⟨objs, [], [], []⟩).running = [] := by
    unfold poolMeasure at hm0
    exact List.length_eq_zero.mp (by omega)
  obtain ⟨h1, h2⟩ := hinv
  rw [hp, hr] at h1
  refine ⟨hp, hr, ?_, ?_⟩
  · unfold callsMade
    simpa using h1
  · unfold errorList callsMade
    exact h2

theorem errorList_perm (processLogs : S3ObjectInfo → Option GoError) (objs : List S3ObjectInfo)
    (sched : List Nat) :
    (errorList processLogs objs sched).Perm
      (objs.filterMap (fun o => (processLogs o).map (objectError o))) := by
  obtain ⟨_, _, h3, h4⟩ := pool_final processLogs objs sched
  rw [h4]
  exact h3.filterMap _

/-! ## Lemmas for the examples -/

theorem sendLogs_single (jsonMarshal : Marshal) (e : LogEntry) (d : List UInt8)
    (h : jsonMarshal e.Data = .ok d) :
    SendLogs jsonMarshal [Msg.entry e] = [[⟨d, e.Timestamp.UnixMilli⟩]] := by
  simp [SendLogs, runLoop, stepMsg, onEntry, h, BatchState.init, onClose]

theorem exampleMarshal_entryOfSize (n : Nat) (sec : Int) :
    ∃ d, exampleMarshal (entryOfSize n sec).Data = .ok d ∧ d.length = n + 8 := by
  refine ⟨_, rfl, ?_⟩
  simp [entryOfSize, GoMap.get, List.lookup]

theorem eventsOf_length_of_ok (jsonMarshal : Marshal) (entries : List LogEntry)
    (h : ∀ e ∈ entries, ∃ d, jsonMarshal e.Data = .ok d) :
    (eventsOf jsonMarshal (entries.map Msg.entry)).length = entries.length := by
  induction entries with
  | nil => rfl
  | cons e es ih =>
    obtain ⟨d, hd⟩ := h e (List.mem_cons_self _ _)
    have hsome : eventOf jsonMarshal e = some ⟨d, e.Timestamp.UnixMilli⟩ := by
      unfold eventOf
      rw [hd]
    rw [List.map_cons, eventsOf_entry_cons, hsome]
    simp only [Option.toList_some, List.singleton_append, List.length_cons]
    rw [ih (fun e he => h e (List.mem_cons_of_mem _ he))]

theorem eventsOf_length_all_ok (jsonMarshal : Marshal) (msgs : List Msg)
    (h : ∀ e, Msg.entry e ∈ msgs → ∃ d, jsonMarshal e.Data = .ok d) :
    (eventsOf jsonMarshal msgs).length = (msgs.filter (fun m => m != Msg.tick)).length := by
  induction msgs with
  | nil => rfl
  | cons m ms ih =>
    have ih1 := ih (fun e he => h e (List.mem_cons_of_mem _ he))
    cases m with
    | entry e =>
      obtain ⟨d, hd⟩ := h e (List.mem_cons_self _ _)
      have hsome : eventOf jsonMarshal e = some ⟨d, e.Timestamp.UnixMilli⟩ := by
        unfold eventOf
        rw [hd]
      have hf : (Msg.entry e != Msg.tick) = true := by simp
      rw [eventsOf_entry_cons, hsome, List.filter_cons, if_pos hf]
      simp only [Option.toList_some, List.singleton_append, List.length_cons]
      rw [ih1]
    | tick =>
      have hev : eventsOf jsonMarshal (Msg.tick :: ms) = eventsOf jsonMarshal ms := by
        simp [eventsOf, List.filterMap_cons]
      have hf : ¬ (Msg.tick != Msg.tick) = true := by decide
      rw [hev, List.filter_cons, if_neg hf, ih1]

/-! ## The batches of `SendLogs` -/

/-- C1, as amended: every batch handed to `sendBatch` has an encoded payload of
at most 1,048,576 bytes or holds exactly one event, whose message is then
longer than 1,048,550 bytes; and the list `sendBatch` passes to `PutLogEvents`
has the same payload, whatever sort within the contract of `sort.Slice` the
library runs. -/
theorem sendLogs_payload_bound (jsonMarshal : Marshal) (msgs : List Msg)
    (b : List InputLogEvent) (hb : b ∈ SendLogs jsonMarshal msgs) :
    (payload b ≤ 1048576 ∨ ∃ ev, b = [ev] ∧ 1048550 < ev.Message.length) ∧
      ∀ sortSlice : SortSlice, SortSliceContract sortSlice →
        payload (sendBatch sortSlice b) = payload b := by
  refine ⟨?_, fun sortSlice hsort => payload_perm (sendBatch_perm sortSlice hsort b)⟩
  by_cases hle : payload b ≤ 1048576
  · exact Or.inl hle
  · right
    have h : payload b ≤ 1048576 ∨ b.length = 1 := (sendLogs_batches jsonMarshal msgs b hb).2.2
    rcases h with h | h
    · exact absurd h hle
    · obtain ⟨ev, hev⟩ := List.length_eq_one.mp h
      refine ⟨ev, hev, ?_⟩
      rw [hev, payload_singleton] at hle
      omega

/-- C2: every batch handed to `sendBatch`, and every list passed to
`PutLogEvents`, holds at most 10,000 events, whatever records and ticks the
loop receives and whatever sort within the contract of `sort.Slice` the
library runs. -/
theorem sendLogs_count_bound (jsonMarshal : Marshal) (msgs : List Msg)
    (b : List InputLogEvent) (hb : b ∈ SendLogs jsonMarshal msgs) :
    b.length ≤ 10000 ∧
      ∀ sortSlice : SortSlice, SortSliceContract sortSlice →
        (sendBatch sortSlice b).length ≤ 10000 := by
  have h : b.length ≤ 10000 := (sendLogs_batches jsonMarshal msgs b hb).2.1
  exact ⟨h, fun sortSlice hsort => by
    rw [(sendBatch_perm sortSlice hsort b).length_eq]; exact h⟩

/-- C3: for every batch of accumulated events, the list `sendBatch` passes to
`PutLogEvents` is a permutation of the accumulated events and is
non-decreasing by timestamp, whatever sort within the contract of `sort.Slice`
the library runs: the closure of `sendBatch` is an ordering the contract
accepts, and what is not less under it is not earlier. -/
theorem sendBatch_sorted_perm (sortSlice : SortSlice) (hsort : SortSliceContract sortSlice)
    (events : List InputLogEvent) :
    (sendBatch sortSlice events).Perm events ∧
      (sendBatch sortSlice events).Pairwise (fun a b => a.Timestamp ≤ b.Timestamp) :=
  ⟨sendBatch_perm sortSlice hsort events, sendBatch_ascending sortSlice hsort events⟩

/-- C3, witness: the library's insertion sort keeps the contract of
`sort.Slice`, and with it `sendBatch` passes four events, two of them of the
same millisecond, in the order of their timestamps. -/
theorem sendBatch_sorted_perm_witness :
    SortSliceContract insertionSort ∧
      sendBatch insertionSort
          [⟨[123, 125], 5000⟩, ⟨[123, 34, 125], 3000⟩, ⟨[125], 4000⟩, ⟨[34], 3000⟩] =
        [⟨[123, 34, 125], 3000⟩, ⟨[34], 3000⟩, ⟨[125], 4000⟩, ⟨[123, 125], 5000⟩] ∧
      ((sendBatch insertionSort
          [⟨[123, 125], 5000⟩, ⟨[123, 34, 125], 3000⟩, ⟨[125], 4000⟩, ⟨[34], 3000⟩]).Perm
          [⟨[123, 125], 5000⟩, ⟨[123, 34, 125], 3000⟩, ⟨[125], 4000⟩, ⟨[34], 3000⟩] ∧
        (sendBatch insertionSort
          [⟨[123, 125], 5000⟩, ⟨[123, 34, 125], 3000⟩, ⟨[125], 4000⟩, ⟨[34], 3000⟩]).Pairwise
          (fun a b => a.Timestamp ≤ b.Timestamp)) :=
  ⟨insertionSort_contract, by decide,
    sendBatch_sorted_perm insertionSort insertionSort_contract
      [⟨[123, 125], 5000⟩, ⟨[123, 34, 125], 3000⟩, ⟨[125], 4000⟩, ⟨[34], 3000⟩]⟩

/-- C10: once the queue is closed, the batches handed to `sendBatch`, in
dispatch order, concatenate to the events built from the received records in
arrival order, and none of them is empty; when `json.Marshal` succeeds on every
received record, the batches hold as many events as records were received. -/
theorem sendLogs_partition (jsonMarshal : Marshal) (msgs : List Msg) :
    (SendLogs jsonMarshal msgs).flatten = eventsOf jsonMarshal msgs ∧
      (∀ b ∈ SendLogs jsonMarshal msgs, b ≠ []) ∧
      ((∀ e, Msg.entry e ∈ msgs → ∃ d, jsonMarshal e.Data = .ok d) →
        (SendLogs jsonMarshal msgs).flatten.length =
          (msgs.filter (fun m => m != Msg.tick)).length) := by
  refine ⟨sendLogs_join jsonMarshal msgs,
    fun b hb => (sendLogs_batches jsonMarshal msgs b hb).1, ?_⟩
  intro hok
  rw [sendLogs_join]
  exact eventsOf_length_all_ok jsonMarshal msgs hok

/-- C7: with no tick before the queue closes, and the payload of every run of
10,000 consecutive events within the size ceiling, the batches are the
consecutive chunks of 10,000 events with a last chunk for the remainder; their
number is the number of events divided by 10,000 and rounded up; and 10,001
events give a batch of 10,000 and a batch of 1. -/
theorem sendLogs_chunks (jsonMarshal : Marshal) (entries : List LogEntry)
    (hfit : ∀ c ∈ chunksOf 10000 (eventsOf jsonMarshal (entries.map Msg.entry)),
      payload c ≤ 1048576) :
    SendLogs jsonMarshal (entries.map Msg.entry) =
        chunksOf 10000 (eventsOf jsonMarshal (entries.map Msg.entry)) ∧
      (SendLogs jsonMarshal (entries.map Msg.entry)).length =
        ((eventsOf jsonMarshal (entries.map Msg.entry)).length + 9999) / 10000 ∧
      ((∀ e ∈ entries, ∃ d, jsonMarshal e.Data = .ok d) →
        (SendLogs jsonMarshal (entries.map Msg.entry)).length =
          (entries.length + 9999) / 10000) ∧
      ((eventsOf jsonMarshal (entries.map Msg.entry)).length = 10001 →
        (SendLogs jsonMarshal (entries.map Msg.entry)).map List.length = [10000, 1]) := by
  have hk : 0 < 10000 := by decide
  have hmain : SendLogs jsonMarshal (entries.map Msg.entry) =
      chunksOf 10000 (eventsOf jsonMarshal (entries.map Msg.entry)) := by
    have h := runLoop_entries_chunks jsonMarshal entries BatchState.init rfl
      (by simp [BatchState.init]) (by simpa [BatchState.init, maxBatchCount, maxBatchSize] using hfit)
    simpa [SendLogs, BatchState.init, maxBatchCount] using h
  have hlen : (SendLogs jsonMarshal (entries.map Msg.entry)).length =
      ((eventsOf jsonMarshal (entries.map Msg.entry)).length + 9999) / 10000 := by
    rw [hmain, chunksOf_length 10000 hk]
  refine ⟨hmain, hlen, ?_, ?_⟩
  · intro hok
    rw [hlen, eventsOf_length_of_ok jsonMarshal entries hok]
  · intro h1
    rw [hmain]
    have hne : eventsOf jsonMarshal (entries.map Msg.entry) ≠ [] := by
      intro h0
      rw [h0] at h1
      simp at h1
    have hdne : (eventsOf jsonMarshal (entries.map Msg.entry)).drop 10000 ≠ [] := by
      intro h0
      have h2 := congrArg List.length h0
      rw [List.length_drop, h1] at h2
      simp at h2
    rw [chunksOf_eq_take_drop 10000 hk _ hne,
      chunksOf_short 10000 hk _ hdne (by rw [List.length_drop, h1]; decide)]
    simp only [List.map_cons, List.map_nil, List.length_take, List.length_drop, h1]
    decide

/-- C1, counterexample: one received record whose JSON message is 1,048,551
bytes long is handed to `sendBatch` as a batch of one event, with a payload of
1,048,577 bytes. -/
theorem sendLogs_oversize_counterexample :
    (∃ ev, SendLogs exampleMarshal [Msg.entry (entryOfSize 1048543 0)] = [[ev]] ∧
        payload [ev] = 1048577) ∧
      ¬ ∀ b ∈ SendLogs exampleMarshal [Msg.entry (entryOfSize 1048543 0)],
        payload b ≤ 1048576 := by
  obtain ⟨d, hd, hlen⟩ := exampleMarshal_entryOfSize 1048543 0
  have hs := sendLogs_single exampleMarshal (entryOfSize 1048543 0) d hd
  have hp : payload [(⟨d, (entryOfSize 1048543 0).Timestamp.UnixMilli⟩ : InputLogEvent)] =
      1048577 := by
    rw [payload_singleton]
    simp only [hlen]
  refine ⟨⟨_, hs, hp⟩, ?_⟩
  intro hall
  have h := hall _ (by rw [hs]; exact List.mem_singleton_self _)
  rw [hp] at h
  exact absurd h (by decide)

/-- C1, witness: two records with a tick between them give two batches of one
event, each within the bound. -/
theorem sendLogs_payload_bound_witness :
    [(⟨[123, 34, 109, 34, 58, 34, 97, 97, 34, 125], 5000⟩ : InputLogEvent)] ∈
        SendLogs exampleMarshal
          [Msg.entry (entryOfSize 2 5), Msg.tick, Msg.entry (entryOfSize 1 3)] ∧
      ((payload [(⟨[123, 34, 109, 34, 58, 34, 97, 97, 34, 125], 5000⟩ : InputLogEvent)] ≤
          1048576 ∨
        ∃ ev, [(⟨[123, 34, 109, 34, 58, 34, 97, 97, 34, 125], 5000⟩ : InputLogEvent)] = [ev] ∧
          1048550 < ev.Message.length) ∧
      ∀ sortSlice : SortSlice, SortSliceContract sortSlice →
        payload (sendBatch sortSlice
            [(⟨[123, 34, 109, 34, 58, 34, 97, 97, 34, 125], 5000⟩ : InputLogEvent)]) =
          payload [(⟨[123, 34, 109, 34, 58, 34, 97, 97, 34, 125], 5000⟩ : InputLogEvent)]) :=
  ⟨by decide, sendLogs_payload_bound exampleMarshal
    [Msg.entry (entryOfSize 2 5), Msg.tick, Msg.entry (entryOfSize 1 3)] _ (by decide)⟩

/-- C2, witness: two records without a tick give one batch of two events. -/
theorem sendLogs_count_bound_witness :
    [(⟨[123, 34, 109, 34, 58, 34, 97, 97, 34, 125], 5000⟩ : InputLogEvent),
        ⟨[123, 34, 109, 34, 58, 34, 97, 34, 125], 3000⟩] ∈
        SendLogs exampleMarshal [Msg.entry (entryOfSize 2 5), Msg.entry (entryOfSize 1 3)] ∧
      ([(⟨[123, 34, 109, 34, 58, 34, 97, 97, 34, 125], 5000⟩ : InputLogEvent),
        ⟨[123, 34, 109, 34, 58, 34, 97, 34, 125], 3000⟩].length ≤ 10000 ∧
      ∀ sortSlice : SortSlice, SortSliceContract sortSlice →
        (sendBatch sortSlice
          [(⟨[123, 34, 109, 34, 58, 34, 97, 97, 34, 125], 5000⟩ : InputLogEvent),
            ⟨[123, 34, 109, 34, 58, 34, 97, 34, 125], 3000⟩]).length ≤ 10000) :=
  ⟨by decide, sendLogs_count_bound exampleMarshal
    [Msg.entry (entryOfSize 2 5), Msg.entry (entryOfSize 1 3)] _ (by decide)⟩

/-- C7, witness: three small records without a tick are dispatched as one
chunk. -/
theorem sendLogs_chunks_witness :
    SendLogs exampleMarshal
        ([entryOfSize 2 5, entryOfSize 1 3, entryOfSize 3 4].map Msg.entry) =
      [[⟨[123, 34, 109, 34, 58, 34, 97, 97, 34, 125], 5000⟩,
        ⟨[123, 34, 109, 34, 58, 34, 97, 34, 125], 3000⟩,
        ⟨[123, 34, 109, 34, 58, 34, 97, 97, 97, 34, 125], 4000⟩]] ∧
      (SendLogs exampleMarshal
        ([entryOfSize 2 5, entryOfSize 1 3, entryOfSize 3 4].map Msg.entry)).length =
        (3 + 9999) / 10000 := by
  have hev : eventsOf exampleMarshal
      ([entryOfSize 2 5, entryOfSize 1 3, entryOfSize 3 4].map Msg.entry) =
      [⟨[123, 34, 109, 34, 58, 34, 97, 97, 34, 125], 5000⟩,
        ⟨[123, 34, 109, 34, 58, 34, 97, 34, 125], 3000⟩,
        ⟨[123, 34, 109, 34, 58, 34, 97, 97, 97, 34, 125], 4000⟩] := by decide
  have hch : chunksOf 10000 (eventsOf exampleMarshal
      ([entryOfSize 2 5, entryOfSize 1 3, entryOfSize 3 4].map Msg.entry)) =
      [[⟨[123, 34, 109, 34, 58, 34, 97, 97, 34, 125], 5000⟩,
        ⟨[123, 34, 109, 34, 58, 34, 97, 34, 125], 3000⟩,
        ⟨[123, 34, 109, 34, 58, 34, 97, 97, 97, 34, 125], 4000⟩]] := by
    rw [hev]
    exact chunksOf_short 10000 (by decide) _ (by simp) (by decide)
  have h := sendLogs_chunks exampleMarshal [entryOfSize 2 5, entryOfSize 1 3, entryOfSize 3 4]
    (by
      rw [hch]
      intro c hc
      rw [List.mem_singleton.mp hc]
      decide)
  refine ⟨by rw [h.1, hch], ?_⟩
  rw [h.2.1, hev]
  rfl

/-! ## `parseS3Url` and `GetTargets` -/

/-- C8: `parseS3Url` gives bucket `b` and prefix `k` without an error on
`s3://` followed by `b`, a slash and `k`, when `b` has no slash; it succeeds on
no other string; on a string without the prefix `s3://` it gives empty results
and the error of the missing prefix; on a string with the prefix and no slash
after it, empty results and the error of the missing slash; and
`s3://mybucket/mykey` gives `mybucket` and `mykey`. -/
theorem parseS3Url_spec :
    (∀ b k : String, '/' ∉ b.data →
      parseS3Url ("s3://" ++ b ++ "/" ++ k) = (b, k, none)) ∧
    (∀ url b k : String, parseS3Url url = (b, k, none) →
      url = "s3://" ++ b ++ "/" ++ k ∧ '/' ∉ b.data) ∧
    (∀ url : String, stringsHasPrefix url "s3://" = false →
      parseS3Url url = ("", "", some (.errorf "invalid S3 URL, missing 's3://' prefix"))) ∧
    (∀ url : String, stringsHasPrefix url "s3://" = true → '/' ∉ url.data.drop 5 →
      parseS3Url url =
        ("", "", some (.errorf "invalid S3 URL, no '/' found after bucket name"))) ∧
    parseS3Url "s3://mybucket/mykey" = ("mybucket", "mykey", none) := by
  refine ⟨?_, ?_, parseS3Url_prefix_missing, parseS3Url_no_slash, by decide⟩
  · intro b k hb
    have hurl : ("s3://" ++ b ++ "/" ++ k).data =
        ['s', '3', ':', '/', '/'] ++ (b.data ++ '/' :: k.data) := by
      simp only [String.data_append]
      simp
    exact parseS3Url_split _ b.data k.data hurl hb
  · intro url b k hparse
    cases hpre : stringsHasPrefix url "s3://" with
    | false =>
      rw [parseS3Url_prefix_missing url hpre] at hparse
      simp at hparse
    | true =>
      by_cases hslash : '/' ∈ url.data.drop 5
      · obtain ⟨b', k', hbk, hb'⟩ := split_first_slash _ hslash
        have hurl : url.data = ['s', '3', ':', '/', '/'] ++ (b' ++ '/' :: k') := by
          rw [← hbk]
          exact hasPrefix_data url hpre
        rw [parseS3Url_split url b' k' hurl hb'] at hparse
        simp only [Prod.mk.injEq, and_true] at hparse
        obtain ⟨h1, h2⟩ := hparse
        subst h1
        subst h2
        refine ⟨?_, hb'⟩
        apply String.ext
        simp only [String.data_append]
        rw [hurl]
        simp
      · rw [parseS3Url_no_slash url hpre hslash] at hparse
        simp at hparse

/-- C9: for a configuration with no entry `cloudwatch`, `GetTargets` gives a nil
list and an error exactly when no entry is `stdout`; otherwise it gives no
error and as many targets as there are entries `stdout`. -/
theorem getTargets_without_cloudwatch (newCloudWatchTarget : Except GoError Target)
    (targetsConfig : String) (h : TargetCloudWatch ∉ stringsSplit targetsConfig ',') :
    (((GetTargets newCloudWatchTarget targetsConfig).1 = [] ∧
        (GetTargets newCloudWatchTarget targetsConfig).2 ≠ none) ↔
      TargetStdout ∉ stringsSplit targetsConfig ',') ∧
    (TargetStdout ∉ stringsSplit targetsConfig ',' →
      GetTargets newCloudWatchTarget targetsConfig =
        ([], some (.errorf "error: no valid targets initialized"))) ∧
    (TargetStdout ∈ stringsSplit targetsConfig ',' →
      (GetTargets newCloudWatchTarget targetsConfig).2 = none ∧
      (GetTargets newCloudWatchTarget targetsConfig).1.length =
        (stringsSplit targetsConfig ',').count TargetStdout ∧
      ∀ t ∈ (GetTargets newCloudWatchTarget targetsConfig).1, t = Target.stdout) := by
  have hget := getTargets_targets newCloudWatchTarget targetsConfig h
  by_cases hs : TargetStdout ∈ stringsSplit targetsConfig ','
  · have hpos : (stringsSplit targetsConfig ',').count TargetStdout ≠ 0 := by
      intro h0
      exact (List.count_eq_zero.mp h0) hs
    rw [if_neg hpos] at hget
    refine ⟨?_, fun hn => absurd hs hn, fun _ => ?_⟩
    · constructor
      · intro hh
        rw [hget] at hh
        exact absurd rfl hh.2
      · intro hn
        exact absurd hs hn
    · rw [hget]
      refine ⟨rfl, by simp, ?_⟩
      intro t ht
      exact (List.mem_replicate.mp ht).2
  · have h0 : (stringsSplit targetsConfig ',').count TargetStdout = 0 :=
      List.count_eq_zero.mpr hs
    rw [if_pos h0] at hget
    refine ⟨?_, fun _ => hget, fun hin => absurd hin hs⟩
    constructor
    · intro _
      exact hs
    · intro _
      rw [hget]
      exact ⟨rfl, by simp⟩

/-- C9, witness: `stdout,unsupported` gives the one console target, and the
empty configuration and `unsupported` give the error. -/
theorem getTargets_without_cloudwatch_witness :
    TargetCloudWatch ∉ stringsSplit "stdout,unsupported" ',' ∧
      GetTargets (.error (.errorf "environment variable CLOUDWATCH_LOG_GROUP is required"))
        "stdout,unsupported" = ([Target.stdout], none) ∧
      (GetTargets (.error (.errorf "environment variable CLOUDWATCH_LOG_GROUP is required"))
          "stdout,unsupported").1.length =
        (stringsSplit "stdout,unsupported" ',').count TargetStdout ∧
      GetTargets (.error (.errorf "environment variable CLOUDWATCH_LOG_GROUP is required"))
        "" = ([], some (.errorf "error: no valid targets initialized")) ∧
      GetTargets (.error (.errorf "environment variable CLOUDWATCH_LOG_GROUP is required"))
        "unsupported" = ([], some (.errorf "error: no valid targets initialized")) :=
  ⟨by decide, by decide,
    ((getTargets_without_cloudwatch
      (.error (.errorf "environment variable CLOUDWATCH_LOG_GROUP is required"))
      "stdout,unsupported" (by decide)).2.2 (by decide)).2.1,
    by decide, by decide⟩

/-! ## `recordToLogEntry` -/

/-- C5: a record of the configured length whose column 1 parses as a timestamp
decodes without an error to an entry with the parsed instant, whose map holds
the value of every included column under its configured name and no key that
is not the name of an included column. The configured names of the included
columns are taken to differ from one another, the table of names not being
among the sources. -/
theorem recordToLogEntry_ok (timeParse : TimeParse) (fieldNames : FieldTable)
    (fields : Fields) (record : List String) (t : Time)
    (hlen : record.length = fieldNames.names.length)
    (htime : ∃ value, record[1]? = some value ∧ timeParse value = .ok t)
    (hnames : ∀ i j, i < record.length → j < record.length →
      fields.IncludeField i = true → fields.IncludeField j = true →
      (fields.GetFieldNameByIndex i).1 = (fields.GetFieldNameByIndex j).1 → i = j) :
    ∃ entry, recordToLogEntry timeParse fieldNames record fields = .ok entry ∧
      entry.Timestamp = t ∧
      (∀ i, i < record.length → fields.IncludeField i = true →
        entry.Data.get (fields.GetFieldNameByIndex i).1 = record[i]?) ∧
      (∀ k ∈ entry.Data.keys, ∃ i, i < record.length ∧ fields.IncludeField i = true ∧
        (fields.GetFieldNameByIndex i).1 = k) := by
  obtain ⟨value, hv, hparse⟩ := htime
  have h1 : 1 < record.length := by
    have := fieldNames.hasTime
    omega
  have hget : record.get ⟨1, h1⟩ = value := by
    have h2 : record[1]? = some (record.get ⟨1, h1⟩) := by
      simp [List.getElem?_eq_getElem h1]
    rw [h2] at hv
    exact Option.some.inj hv
  refine ⟨⟨fillEntryMap fields record 0 [], t⟩, ?_, rfl, ?_, ?_⟩
  · unfold recordToLogEntry
    rw [dif_neg (not_not.mpr hlen)]
    simp only [hget, hparse]
  · intro i hi hinc
    have h := fillEntryMap_value fields record 0 [] i (Nat.zero_le i) (by omega) hinc
      (by
        intro j hj1 hj2 hjinc hname
        have := hnames j i (by omega) hi hjinc hinc hname
        omega)
    simpa using h
  · intro k hk
    rcases fillEntryMap_keys fields record 0 [] k hk with h | ⟨j, _, hj, hinc, hname⟩
    · simp [GoMap.keys] at h
    · exact ⟨j, by omega, hinc, hname⟩

/-- C5, witness: a record of three columns under the example policy keeps the
columns `time` and `elb` and leaves `type` out. -/
theorem recordToLogEntry_ok_witness :
    recordToLogEntry exampleTimeParse exampleFieldNames
        ["http", "2024-11-17T12:00:00Z", "lb"] exampleFields =
      .ok ⟨[("elb", "lb"), ("time", "2024-11-17T12:00:00Z")], ⟨1731844800, 0⟩⟩ ∧
    ∃ entry, recordToLogEntry exampleTimeParse exampleFieldNames
        ["http", "2024-11-17T12:00:00Z", "lb"] exampleFields = .ok entry ∧
      entry.Timestamp = ⟨1731844800, 0⟩ ∧
      (∀ i, i < ["http", "2024-11-17T12:00:00Z", "lb"].length →
        exampleFields.IncludeField i = true →
        entry.Data.get (exampleFields.GetFieldNameByIndex i).1 =
          ["http", "2024-11-17T12:00:00Z", "lb"][i]?) ∧
      (∀ k ∈ entry.Data.keys, ∃ i, i < ["http", "2024-11-17T12:00:00Z", "lb"].length ∧
        exampleFields.IncludeField i = true ∧ (exampleFields.GetFieldNameByIndex i).1 = k) :=
  ⟨by rfl,
    recordToLogEntry_ok exampleTimeParse exampleFieldNames exampleFields
      ["http", "2024-11-17T12:00:00Z", "lb"] ⟨1731844800, 0⟩ (by decide)
      ⟨"2024-11-17T12:00:00Z", by decide, by rfl⟩
      (by
        intro i j hi hj
        have hi3 : i < 3 := hi
        have hj3 : j < 3 := hj
        interval_cases i <;> interval_cases j <;> decide)⟩

/-! ## `ProcessLogs` and `processS3Objects` -/

theorem length_filterMap_map {α β γ : Type} (f : α → Option β) (g : α → β → γ)
    (l : List α) :
    (l.filterMap (fun o => (f o).map (g o))).length =
      (l.filter (fun o => (f o).isSome)).length := by
  induction l with
  | nil => rfl
  | cons a l ih =>
    cases h : f a with
    | none => simp [List.filterMap_cons, List.filter_cons, h, ih]
    | some v => simp [List.filterMap_cons, List.filter_cons, h, ih]

theorem mem_errorList_iff (processLogs : S3ObjectInfo → Option GoError)
    (objs : List S3ObjectInfo) (sched : List Nat) (x : GoError) :
    x ∈ errorList processLogs objs sched ↔
      ∃ o ∈ objs, ∃ e, processLogs o = some e ∧ x = objectError o e := by
  rw [(errorList_perm processLogs objs sched).mem_iff, List.mem_filterMap]
  constructor
  · rintro ⟨o, ho, hx⟩
    cases hpl : processLogs o with
    | none =>
      rw [hpl] at hx
      simp at hx
    | some e =>
      rw [hpl] at hx
      simp only [Option.map_some', Option.some.injEq] at hx
      exact ⟨o, ho, e, hpl, hx.symm⟩
  · rintro ⟨o, ho, e, hpl, hx⟩
    exact ⟨o, ho, by rw [hpl, hx]; rfl⟩

theorem errorList_eq_nil_iff (processLogs : S3ObjectInfo → Option GoError)
    (objs : List S3ObjectInfo) (sched : List Nat) :
    errorList processLogs objs sched = [] ↔ ∀ o ∈ objs, processLogs o = none := by
  constructor
  · intro h o ho
    cases hpl : processLogs o with
    | none => rfl
    | some e =>
      have hmem : objectError o e ∈ errorList processLogs objs sched :=
        (mem_errorList_iff processLogs objs sched _).mpr ⟨o, ho, e, hpl, rfl⟩
      rw [h] at hmem
      simp at hmem
  · intro h
    apply List.eq_nil_iff_forall_not_mem.mpr
    intro x hx
    obtain ⟨o, ho, e, hpl, _⟩ := (mem_errorList_iff processLogs objs sched x).mp hx
    rw [h o ho] at hpl
    simp at hpl

theorem processS3Objects_eq (timeParse : TimeParse) (fieldNames : FieldTable)
    (lp : LogProcessor) (objs : List S3ObjectInfo) (sched : List Nat) :
    processS3Objects timeParse fieldNames lp objs sched =
      if errorList (fun o => (ProcessLogs timeParse fieldNames lp o).2) objs sched = [] then none
      else some (aggregateError
        (errorList (fun o => (ProcessLogs timeParse fieldNames lp o).2) objs sched)) := by
  unfold processS3Objects
  simp only
  cases h : errorList (fun o => (ProcessLogs timeParse fieldNames lp o).2) objs sched with
  | nil => simp
  | cons x xs => simp

theorem processLogs_fetch_error (timeParse : TimeParse) (fieldNames : FieldTable)
    (lp : LogProcessor) (obj : S3ObjectInfo) (err : GoError)
    (h : lp.s3Client.GetObject obj = .error err) :
    ProcessLogs timeParse fieldNames lp obj =
      ([], some (.errorf ("failed to get object: " ++ err.Error))) := by
  unfold ProcessLogs
  rw [h]

theorem processLogs_fetch_ok (timeParse : TimeParse) (fieldNames : FieldTable)
    (lp : LogProcessor) (obj : S3ObjectInfo) (body : List ReadResult)
    (h : lp.s3Client.GetObject obj = .ok body) :
    ProcessLogs timeParse fieldNames lp obj =
      ((processRecords timeParse fieldNames lp.config.Fields body).1, none) := by
  unfold ProcessLogs
  rw [h]

theorem processLogs_nil_iff (timeParse : TimeParse) (fieldNames : FieldTable)
    (lp : LogProcessor) (obj : S3ObjectInfo) :
    (ProcessLogs timeParse fieldNames lp obj).2 = none ↔
      ∃ body, lp.s3Client.GetObject obj = .ok body := by
  cases h : lp.s3Client.GetObject obj with
  | error err =>
    rw [processLogs_fetch_error timeParse fieldNames lp obj err h]
    simp
  | ok body =>
    rw [processLogs_fetch_ok timeParse fieldNames lp obj body h]
    simp

/-- C4, counterexample: an object whose one record has two columns where three
are configured, and an object whose gzip payload ends early, make
`processRecords` return an error, yet `ProcessLogs` returns nil for each, and
`processS3Objects` on them and a well-formed object returns nil. -/
theorem processLogs_decode_failure_counterexample :
    (processRecords exampleTimeParse exampleFieldNames exampleFields
        [.ok ["http", "2024-11-17T12:00:00Z"]]).2 =
      some (.errorf "invalid log format: expected 3 fields, got 2") ∧
    (ProcessLogs exampleTimeParse exampleFieldNames exampleProcessor
        ⟨"logs", "short.gz"⟩).2 = none ∧
    (processRecords exampleTimeParse exampleFieldNames exampleFields
        [.error (.errorf "unexpected EOF")]).2 =
      some (.errorf "error reading a record: unexpected EOF") ∧
    (ProcessLogs exampleTimeParse exampleFieldNames exampleProcessor
        ⟨"logs", "truncated.gz"⟩).2 = none ∧
    processS3Objects exampleTimeParse exampleFieldNames exampleProcessor
        [⟨"logs", "good.gz"⟩, ⟨"logs", "short.gz"⟩, ⟨"logs", "truncated.gz"⟩] [] = none := by
  refine ⟨by decide, by decide, by decide, by decide, by decide⟩

/-- C4, as amended: `ProcessLogs` returns a non-nil error for an object exactly
when fetching the object fails, and then the error of the failed fetch; when
the fetch succeeds it returns nil whatever `processRecords` returns. So
`processS3Objects` returns nil exactly when every object can be fetched, and
its error list holds exactly the wrapped fetch errors of the objects that
cannot. -/
theorem processLogs_error_iff_fetch_fails (timeParse : TimeParse) (fieldNames : FieldTable)
    (lp : LogProcessor) :
    (∀ obj, (ProcessLogs timeParse fieldNames lp obj).2 = none ↔
      ∃ body, lp.s3Client.GetObject obj = .ok body) ∧
    (∀ obj err, lp.s3Client.GetObject obj = .error err →
      ProcessLogs timeParse fieldNames lp obj =
        ([], some (.errorf ("failed to get object: " ++ err.Error)))) ∧
    (∀ obj body, lp.s3Client.GetObject obj = .ok body →
      ProcessLogs timeParse fieldNames lp obj =
        ((processRecords timeParse fieldNames lp.config.Fields body).1, none)) ∧
    (∀ objs sched, processS3Objects timeParse fieldNames lp objs sched = none ↔
      ∀ o ∈ objs, ∃ body, lp.s3Client.GetObject o = .ok body) ∧
    (∀ objs sched x,
      x ∈ errorList (fun o => (ProcessLogs timeParse fieldNames lp o).2) objs sched ↔
        ∃ o ∈ objs, ∃ err, lp.s3Client.GetObject o = .error err ∧
          x = objectError o (.errorf ("failed to get object: " ++ err.Error))) := by
  refine ⟨processLogs_nil_iff timeParse fieldNames lp,
    processLogs_fetch_error timeParse fieldNames lp,
    processLogs_fetch_ok timeParse fieldNames lp, ?_, ?_⟩
  · intro objs sched
    rw [processS3Objects_eq]
    constructor
    · intro h o ho
      split at h
      · rename_i hnil
        exact (processLogs_nil_iff timeParse fieldNames lp o).mp
          ((errorList_eq_nil_iff _ objs sched).mp hnil o ho)
      · simp at h
    · intro h
      rw [if_pos]
      exact (errorList_eq_nil_iff _ objs sched).mpr
        (fun o ho => (processLogs_nil_iff timeParse fieldNames lp o).mpr (h o ho))
  · intro objs sched x
    rw [mem_errorList_iff]
    constructor
    · rintro ⟨o, ho, e, hpl, hx⟩
      cases hget : lp.s3Client.GetObject o with
      | error err =>
        rw [processLogs_fetch_error timeParse fieldNames lp o err hget] at hpl
        simp only [Option.some.injEq] at hpl
        exact ⟨o, ho, err, hget, by rw [hx, ← hpl]⟩
      | ok body =>
        rw [processLogs_fetch_ok timeParse fieldNames lp o body hget] at hpl
        simp at hpl
    · rintro ⟨o, ho, err, hget, hx⟩
      exact ⟨o, ho, _, by rw [processLogs_fetch_error timeParse fieldNames lp o err hget], hx⟩

/-- C6: under every schedule of its goroutines, `processS3Objects` calls
`ProcessLogs` once for each object; it returns nil exactly when every call
returned nil; otherwise it returns an error that wraps nothing and whose
message is `encountered errors: ` followed by the messages of its error list
between brackets, separated by a space; the error list holds one entry for
each failing object, in some order; and an entry names the bucket and the key
of its object, carries the message of the cause and wraps the cause. -/
theorem processS3Objects_aggregates (timeParse : TimeParse) (fieldNames : FieldTable)
    (lp : LogProcessor) (objs : List S3ObjectInfo) (sched : List Nat) :
    (callsMade (fun o => (ProcessLogs timeParse fieldNames lp o).2) objs sched).Perm objs ∧
    (processS3Objects timeParse fieldNames lp objs sched = none ↔
      ∀ o ∈ objs, (ProcessLogs timeParse fieldNames lp o).2 = none) ∧
    ((∃ o ∈ objs, (ProcessLogs timeParse fieldNames lp o).2 ≠ none) →
      ∃ err, processS3Objects timeParse fieldNames lp objs sched = some err ∧
        err.Unwrap = none ∧
        err.Error = "encountered errors: [" ++ " ".intercalate
          ((errorList (fun o => (ProcessLogs timeParse fieldNames lp o).2) objs sched).map
            GoError.Error) ++ "]") ∧
    (errorList (fun o => (ProcessLogs timeParse fieldNames lp o).2) objs sched).Perm
      (objs.filterMap
        (fun o => ((ProcessLogs timeParse fieldNames lp o).2).map (objectError o))) ∧
    (errorList (fun o => (ProcessLogs timeParse fieldNames lp o).2) objs sched).length =
      (objs.filter (fun o => ((ProcessLogs timeParse fieldNames lp o).2).isSome)).length ∧
    (∀ x ∈ errorList (fun o => (ProcessLogs timeParse fieldNames lp o).2) objs sched,
      ∃ o ∈ objs, ∃ cause, (ProcessLogs timeParse fieldNames lp o).2 = some cause ∧
        x.Unwrap = some cause ∧
        x.Error = "error processing logs for s3://" ++ o.Bucket ++ "/" ++ o.Key ++ ": " ++
          cause.Error) := by
  refine ⟨(pool_final _ objs sched).2.2.1, ?_, ?_, errorList_perm _ objs sched, ?_, ?_⟩
  · rw [processS3Objects_eq]
    constructor
    · intro h
      split at h
      · rename_i hnil
        exact (errorList_eq_nil_iff _ objs sched).mp hnil
      · simp at h
    · intro h
      rw [if_pos ((errorList_eq_nil_iff _ objs sched).mpr h)]
  · rintro ⟨o, ho, hne⟩
    have hnn : ¬ errorList (fun o => (ProcessLogs timeParse fieldNames lp o).2) objs sched = [] :=
      fun hnil => hne ((errorList_eq_nil_iff _ objs sched).mp hnil o ho)
    refine ⟨aggregateError
      (errorList (fun o => (ProcessLogs timeParse fieldNames lp o).2) objs sched),
      by rw [processS3Objects_eq, if_neg hnn], rfl, ?_⟩
    have hlit : ("encountered errors: [" : String) = "encountered errors: " ++ "[" := by decide
    rw [hlit]
    simp only [aggregateError, formatErrors, GoError.Error, String.append_assoc]
  · rw [(errorList_perm _ objs sched).length_eq]
    exact length_filterMap_map _ _ objs
  · intro x hx
    obtain ⟨o, ho, e, hpl, hxe⟩ := (mem_errorList_iff _ objs sched x).mp hx
    exact ⟨o, ho, e, hpl, by rw [hxe]; rfl, by rw [hxe]; rfl⟩

/-- C6, witness: of four objects two cannot be fetched; the aggregate error
lists these two, in the order their goroutines end: the order of the list
under one schedule, the other order when the last goroutine ends first. -/
theorem processS3Objects_aggregates_witness :
    processS3Objects exampleTimeParse exampleFieldNames exampleProcessor
        [⟨"logs", "good.gz"⟩, ⟨"logs", "nope.gz"⟩, ⟨"logs", "short.gz"⟩, ⟨"logs", "gone.gz"⟩]
        [] =
      some (.errorf ("encountered errors: " ++
        "[error processing logs for s3://logs/nope.gz: failed to get object: NoSuchKey " ++
        "error processing logs for s3://logs/gone.gz: failed to get object: NoSuchKey]")) ∧
    processS3Objects exampleTimeParse exampleFieldNames exampleProcessor
        [⟨"logs", "good.gz"⟩, ⟨"logs", "nope.gz"⟩, ⟨"logs", "short.gz"⟩, ⟨"logs", "gone.gz"⟩]
        [0, 0, 0, 0, 3] =
      some (.errorf ("encountered errors: " ++
        "[error processing logs for s3://logs/gone.gz: failed to get object: NoSuchKey " ++
        "error processing logs for s3://logs/nope.gz: failed to get object: NoSuchKey]")) ∧
    (callsMade (fun o => (ProcessLogs exampleTimeParse exampleFieldNames exampleProcessor o).2)
        [⟨"logs", "good.gz"⟩, ⟨"logs", "nope.gz"⟩, ⟨"logs", "short.gz"⟩, ⟨"logs", "gone.gz"⟩]
        [0, 0, 0, 0, 3]).Perm
      [⟨"logs", "good.gz"⟩, ⟨"logs", "nope.gz"⟩, ⟨"logs", "short.gz"⟩, ⟨"logs", "gone.gz"⟩] :=
  ⟨by rfl, by rfl,
    (processS3Objects_aggregates exampleTimeParse exampleFieldNames exampleProcessor
      [⟨"logs", "good.gz"⟩, ⟨"logs", "nope.gz"⟩, ⟨"logs", "short.gz"⟩, ⟨"logs", "gone.gz"⟩]
      [0, 0, 0, 0, 3]).1⟩

end AlbLogPipe
